import Mathlib

/-!
# BasicDisassembler: the x86 instruction front end

A shallow embedding of `x86_instr.h` and `x86_instr.cpp`: the instruction
record, the attribute predicates, the legacy-prefix scanner
`x86_get_prefixes`, the opcode resolver `x86_get_opcode`, `x86_has_modrm`,
`x86_handle_rex` and the ModR/M and SIB field accessors.

Conventions of the embedding.

* The source walks the input through a raw `unsigned char*` with no length,
  so memory is a total map from addresses to cells and a cursor is an
  address. A cell is read through `load`, which yields a byte (`% 256`).
* A buffer such as `[0xF0, 0x90]` placed at address `a` is the predicate
  `bufferAt mem a [0xF0, 0x90]`; `memOf` builds a concrete memory from a
  list for evaluation.
* `uint8_t` and `uint32_t` arithmetic is `Nat` arithmetic with an explicit
  `% 256` or `% 2 ^ 32`.
* A `byte*` field of the record is `Option Nat`: `none` is the null pointer
  of the zeroed record, `some a` points at address `a`.
-/

/-- Memory seen through a raw byte pointer: address to cell. -/
abbrev Memory := Nat → Nat

/-- The read `*byte` of an `unsigned char*`: the cell as a byte. -/
def load (mem : Memory) (addr : Nat) : Nat := mem addr % 256

/-- A concrete memory holding `bytes` from address 0 on, zero elsewhere. -/
def memOf (bytes : List Nat) : Memory := fun a => bytes.getD a 0

/-- The bytes `bytes` lie in memory from address `a` on. -/
def bufferAt (mem : Memory) : Nat → List Nat → Prop
  | _, [] => True
  | a, b :: bs => load mem a = b ∧ bufferAt mem (a + 1) bs

/-- Macro `x86_MAX_INST_SIZE`, defined as 15. -/
def x86_MAX_INST_SIZE : Nat := 15

/-- Macro `x86_MAX_PREFIX_GROUPS`, defined as 4. -/
def x86_MAX_PREFIX_GROUPS : Nat := 4

/-- Macro `x86_MAX_OPCODE_SIZE`, defined as 3. -/
def x86_MAX_OPCODE_SIZE : Nat := 3

/-- Modelled from the spec: `x86_tables.h` is not among the sources, so the
legacy prefix byte values it defines are taken from the architecture's
encoding named by the spec (Group 1: LOCK). -/
def x86_PREFIX_LOCK : Nat := 0xF0

/-- Modelled from the spec: value of the missing `x86_tables.h` (Group 1: REPNE/REPNZ). -/
def x86_PREFIX_REPNE_REPNZ : Nat := 0xF2

/-- Modelled from the spec: value of the missing `x86_tables.h` (Group 1: REP/REPE/REPZ). -/
def x86_PREFIX_REP_REPE_REPZ : Nat := 0xF3

/-- Modelled from the spec: value of the missing `x86_tables.h` (Group 2: CS override). -/
def x86_PREFIX_SEGMENT_CS : Nat := 0x2E

/-- Modelled from the spec: value of the missing `x86_tables.h` (Group 2: SS override). -/
def x86_PREFIX_SEGMENT_SS : Nat := 0x36

/-- Modelled from the spec: value of the missing `x86_tables.h` (Group 2: DS override). -/
def x86_PREFIX_SEGMENT_DS : Nat := 0x3E

/-- Modelled from the spec: value of the missing `x86_tables.h` (Group 2: ES override). -/
def x86_PREFIX_SEGMENT_ES : Nat := 0x26

/-- Modelled from the spec: value of the missing `x86_tables.h` (Group 2: FS override). -/
def x86_PREFIX_SEGMENT_FS : Nat := 0x64

/-- Modelled from the spec: value of the missing `x86_tables.h` (Group 2: GS override). -/
def x86_PREFIX_SEGMENT_GS : Nat := 0x65

/-- Modelled from the spec: value of the missing `x86_tables.h` (Group 2: branch not
taken hint, the same byte as the CS override). -/
def x86_PREFIX_BRANCH_NOT_TAKEN : Nat := 0x2E

/-- Modelled from the spec: value of the missing `x86_tables.h` (Group 2: branch taken
hint, the same byte as the DS override). -/
def x86_PREFIX_BRANCH_TAKEN : Nat := 0x3E

/-- Modelled from the spec: value of the missing `x86_tables.h` (Group 3: operand-size
override). -/
def x86_PREFIX_OPERAND_OVERRIDE : Nat := 0x66

/-- Modelled from the spec: value of the missing `x86_tables.h` (Group 4: address-size
override). -/
def x86_PREFIX_ADDRESS_OVERRIDE : Nat := 0x67

namespace x86

namespace attributes

/-- Enumerator `prefix = 1 << 20` of `attributes` (`prefix` is a keyword of
Lean, hence the trailing underscore). -/
def prefix_ : Nat := 1 <<< 20

/-- Enumerator `rex = 1 << 19` of `attributes`. -/
def rex : Nat := 1 <<< 19

/-- Enumerator `vex = 1 << 18` of `attributes`. -/
def vex : Nat := 1 <<< 18

/-- Enumerator `escape_code = 1 << 13` of `attributes`. -/
def escape_code : Nat := 1 <<< 13

/-- Enumerator `opcode = 1 << 12` of `attributes`. -/
def opcode : Nat := 1 <<< 12

/-- Enumerator `modrm = 1 << 7` of `attributes`. -/
def modrm : Nat := 1 <<< 7

/-- Enumerator `sib = 1 << 6` of `attributes`. -/
def sib : Nat := 1 <<< 6

/-- Enumerator `displacement = 1 << 5` of `attributes`. -/
def displacement : Nat := 1 <<< 5

/-- Enumerator `immediate = 1 << 4` of `attributes`. -/
def immediate : Nat := 1 <<< 4

end attributes

/-- The record `struct inst`. The array `byte prefix[4]` is the list
`prefixes` (one slot per group, 0 = empty); the `byte*` fields are optional
addresses. -/
structure inst where
  prefixes : List Nat
  rex : Option Nat
  vex : Option Nat
  opcode : List (Option Nat)
  modrm : Option Nat
  sib : Option Nat
  attr : Nat
  size : Nat
  deriving DecidableEq, Repr

/-- The all-zero record a decode starts from. -/
def inst.fresh : inst :=
  { prefixes := [0, 0, 0, 0], rex := none, vex := none,
    opcode := [none, none, none], modrm := none, sib := none,
    attr := 0, size := 0 }

/-- The function `static inline uint8_t isPrefix(uint8_t attr)`: the argument
is converted to the `uint8_t` parameter (`% 256`), masked with
`attributes.prefix`, and the result converted to `uint8_t`. -/
def isPrefix (attr : Nat) : Nat := ((attr % 256) &&& attributes.prefix_) % 256

/-- The function `static inline uint8_t isEscapeCode(uint8_t attr)`, with the
same two conversions to `uint8_t`. -/
def isEscapeCode (attr : Nat) : Nat := ((attr % 256) &&& attributes.escape_code) % 256

/-- The function `static inline uint8_t isOpcode(uint8_t attr)`, with the same
two conversions to `uint8_t`. -/
def isOpcode (attr : Nat) : Nat := ((attr % 256) &&& attributes.opcode) % 256

/-- The function `static inline uint8_t hasRex(uint8_t attr)`, with the same
two conversions to `uint8_t`. -/
def hasRex (attr : Nat) : Nat := ((attr % 256) &&& attributes.rex) % 256

/-- The function `static inline uint8_t hasVex(uint8_t attr)`, with the same
two conversions to `uint8_t`. -/
def hasVex (attr : Nat) : Nat := ((attr % 256) &&& attributes.vex) % 256

/-- The function `static inline uint8_t hasModRM(uint8_t attr)`, with the same
two conversions to `uint8_t`. -/
def hasModRM (attr : Nat) : Nat := ((attr % 256) &&& attributes.modrm) % 256

/-- The function `static inline uint8_t hasSib(uint8_t attr)`, with the same
two conversions to `uint8_t`. -/
def hasSib (attr : Nat) : Nat := ((attr % 256) &&& attributes.sib) % 256

/-- The function `static inline uint8_t hasDisplacement(uint8_t attr)`, with
the same two conversions to `uint8_t`. -/
def hasDisplacement (attr : Nat) : Nat := ((attr % 256) &&& attributes.displacement) % 256

/-- The function `static inline uint8_t hasImmediate(uint8_t attr)`, with the
same two conversions to `uint8_t`. -/
def hasImmediate (attr : Nat) : Nat := ((attr % 256) &&& attributes.immediate) % 256

namespace modrm

/-- Body `return modrm >> 6;`, returned as `uint8_t`. -/
def mod (modrm : Nat) : Nat := (modrm >>> 6) % 256

/-- Body `return (modrm & 0x38) >> 3;`, returned as `uint8_t`. -/
def reg (modrm : Nat) : Nat := ((modrm &&& 0x38) >>> 3) % 256

/-- Body `return modrm & 0x07;`, returned as `uint8_t`. -/
def rm (modrm : Nat) : Nat := (modrm &&& 0x07) % 256

end modrm

namespace sib

/-- Body `return sib >> 6;`, returned as `uint8_t`. -/
def scale (sib : Nat) : Nat := (sib >>> 6) % 256

/-- Body `return (sib & 0x38) >> 3;`, returned as `uint8_t`. -/
def index (sib : Nat) : Nat := ((sib &&& 0x38) >>> 3) % 256

/-- Body `return sib & 0x07;`, returned as `uint8_t`. -/
def base (sib : Nat) : Nat := (sib &&& 0x07) % 256

end sib

end x86

/-! ## `x86_get_prefixes` -/

/-- The locals of `x86_get_prefixes` together with the record it writes:
the cursor `byte`, `hasPrefix`, `nPrefs` (`uint8_t`), `group` (`int8_t`). -/
structure PrefixScan where
  byte : Nat
  hasPrefix : Bool
  nPrefs : Nat
  group : Int
  inst : x86.inst
  deriving DecidableEq, Repr

/-- The `switch` of the loop body: the group of the byte under the cursor,
or `hasPrefix = false`, `group = -1` in the `default` case. The flag is only
ever cleared, never set again. -/
def prefixSwitch (b : Nat) (hasPrefix : Bool) : Bool × Int :=
  if b = x86_PREFIX_LOCK ∨ b = x86_PREFIX_REPNE_REPNZ ∨ b = x86_PREFIX_REP_REPE_REPZ then
    (hasPrefix, 0)
  else if b = x86_PREFIX_SEGMENT_CS ∨ b = x86_PREFIX_SEGMENT_SS ∨ b = x86_PREFIX_SEGMENT_DS
      ∨ b = x86_PREFIX_SEGMENT_ES ∨ b = x86_PREFIX_SEGMENT_FS ∨ b = x86_PREFIX_SEGMENT_GS
      ∨ b = x86_PREFIX_BRANCH_NOT_TAKEN ∨ b = x86_PREFIX_BRANCH_TAKEN then
    (hasPrefix, 1)
  else if b = x86_PREFIX_OPERAND_OVERRIDE then
    (hasPrefix, 2)
  else if b = x86_PREFIX_ADDRESS_OVERRIDE then
    (hasPrefix, 3)
  else
    (false, -1)

/-- One pass through the body of the `do ... while` loop. The first
component is `true` when the body left the function through the `return` of
the occupied-slot branch (before `inst->size++`, `nPrefs++` and `*byte++`). -/
def prefixBody (mem : Memory) (s : PrefixScan) : Bool × PrefixScan :=
  let b := load mem s.byte
  let sw := prefixSwitch b s.hasPrefix
  let s1 : PrefixScan := { s with hasPrefix := sw.1, group := sw.2 }
  if s1.hasPrefix then
    if s1.inst.prefixes.getD s1.group.toNat 0 ≠ 0 then
      (true, s1)
    else
      let i1 : x86.inst :=
        { s1.inst with prefixes := s1.inst.prefixes.set s1.group.toNat b }
      let i2 : x86.inst := { i1 with size := (i1.size + 1) % 256 }
      (false, { s1 with inst := i2, nPrefs := (s1.nPrefs + 1) % 256, byte := s1.byte + 1 })
  else
    (false, { s1 with byte := s1.byte + 1 })

/-- The `do ... while(hasPrefix && nPrefs < 4)` loop, unrolled by `fuel`
passes. -/
def prefixLoop (mem : Memory) : Nat → PrefixScan → PrefixScan
  | 0, s => s
  | fuel + 1, s =>
    match prefixBody mem s with
    | (true, s1) => s1
    | (false, s1) =>
      if s1.hasPrefix && decide (s1.nPrefs < 4) then prefixLoop mem fuel s1 else s1

/-- The state in which `x86_get_prefixes(byte)` enters its loop:
`hasPrefix = true`, `nPrefs = 0`, `group = 0`, on the ambient record `inst`. -/
def prefixStart (byte : Nat) (inst : x86.inst) : PrefixScan :=
  { byte := byte, hasPrefix := true, nPrefs := 0, group := 0, inst := inst }

/-- The state in which `x86_get_prefixes(byte)` returns, run on the ambient
record `inst`. Every pass that continues the loop increments `nPrefs`, so
four passes are all the loop can make: more fuel gives the same state
(`x86_get_prefixes_scan_fuel`). -/
def x86_get_prefixes_scan (mem : Memory) (byte : Nat) (inst : x86.inst) : PrefixScan :=
  prefixLoop mem 4 (prefixStart byte inst)

/-- What `void x86_get_prefixes(unsigned char* byte)` leaves to its caller:
the ambient record. The cursor is a by-value parameter, so its final value
is not visible outside the function. -/
def x86_get_prefixes (mem : Memory) (byte : Nat) (inst : x86.inst) : x86.inst :=
  (x86_get_prefixes_scan mem byte inst).inst

/-- The value of the local cursor `byte` when `x86_get_prefixes` returns. -/
def x86_get_prefixes_cursor (mem : Memory) (byte : Nat) (inst : x86.inst) : Nat :=
  (x86_get_prefixes_scan mem byte inst).byte

/-- The ambient state `x86_get_opcode` works on: the record (its `attr` and
`modrm` fields are the `attr` and `modrm` the function assigns), the table
selector `table`, and the value of the local cursor `byte`. -/
structure OpcodeScan where
  byte : Nat
  table : Nat
  inst : x86.inst
  deriving DecidableEq, Repr

/-- The escape handling of `x86_get_opcode`: after `0x0F` the cursor moves
on; `0x3A` selects table 31 and `0x38` table 32, each moving the cursor once
more; any other byte selects table 1. Without `0x0F` neither the selector
nor the cursor changes. -/
def x86_get_opcode_escape (mem : Memory) (s : OpcodeScan) : OpcodeScan :=
  if load mem s.byte = 0x0F then
    let s1 : OpcodeScan := { s with byte := s.byte + 1 }
    if load mem s1.byte = 0x3A then { s1 with table := 31, byte := s1.byte + 1 }
    else if load mem s1.byte = 0x38 then { s1 with table := 32, byte := s1.byte + 1 }
    else { s1 with table := 1 }
  else s

/-- The function `void x86_get_opcode(unsigned char* byte)`. The attribute tables of the
missing `x86_tables.h` are the parameter `tables` (selector, then opcode
byte, to a `uint32_t` attribute word); `MODRM` is `attributes.modrm`.
After the escape handling, `attr = table[byte]` reads the byte under the
cursor without moving it; when the ModR/M bit is set, `modrm = byte` records
the cursor and `*byte++` moves it on by one. -/
def x86_get_opcode (tables : Nat → Nat → Nat) (mem : Memory) (s : OpcodeScan) : OpcodeScan :=
  let s1 := x86_get_opcode_escape mem s
  let attr := tables s1.table (load mem s1.byte) % 2 ^ 32
  let s2 : OpcodeScan := { s1 with inst := { s1.inst with attr := attr } }
  if attr &&& x86.attributes.modrm ≠ 0 then
    { s2 with inst := { s2.inst with modrm := some s2.byte }, byte := s2.byte + 1 }
  else s2

/-- The byte the record's `modrm` pointer points at, if it is set. -/
def modrmByte (mem : Memory) (i : x86.inst) : Option Nat :=
  i.modrm.map (load mem)

/-! ## `x86_has_modrm` and `x86_handle_rex` -/

/-- The function `bool x86_has_modrm(size_t size, byte opcode)`. The array
`x86_opcode_attribute_table` and the macro `x86_OPCODE_ATTR_MODRM_MASK` of
the missing `x86_tables.h` are parameters. The expression dereferences
`x86_opcode_attribute_table[size]`, so the array holds three pointers to
tables, here the list of the tables pointed at, each table being the list of
its attribute words (one per opcode byte). A read outside a list is `none`.

The guard `size < 0 || size >= 3` answers `false` before any lookup.
Otherwise `*(x86_opcode_attribute_table[size])[opcode]` is evaluated as C
parses it, the subscripts before the dereference:
`*((x86_opcode_attribute_table[size])[opcode])`. With `p` the pointer to
table number `size`, `p[opcode]` is the `opcode`-th whole table counted from
`*p`, and the dereference yields its first word, that is word number
`opcode * (length of the table)` counted from the start of table `size`. The
word is masked and converted to `bool`. -/
def x86_has_modrm (x86_opcode_attribute_table : List (List Nat))
    (x86_OPCODE_ATTR_MODRM_MASK : Nat) (size opcode : Nat) : Option Bool :=
  if size < 0 ∨ size ≥ 3 then some false
  else
    match x86_opcode_attribute_table[size]? with
    | none => none
    | some table =>
      match table[opcode * table.length]? with
      | none => none
      | some attr => some (decide (attr &&& x86_OPCODE_ATTR_MODRM_MASK ≠ 0))

/-- Three attribute tables of 256 words each in which only the entry of
table 1 for opcode `0x1F` is non-zero: it carries the ModR/M bit. -/
def nopAttributeTable : List (List Nat) :=
  [List.replicate 256 0, (List.replicate 256 0).set 0x1F 128, List.replicate 256 0]

/-- The function `void x86_handle_rex()`: its body is empty, so the ambient
record is left as it is. -/
def x86_handle_rex (inst : x86.inst) : x86.inst := inst

/-- The number of passes the `do ... while` loop of `x86_get_prefixes` makes
from the state `s`, counted up to `fuel`. -/
def prefixPasses (mem : Memory) : Nat → PrefixScan → Nat
  | 0, _ => 0
  | fuel + 1, s =>
    match prefixBody mem s with
    | (true, _) => 1
    | (false, s1) =>
      if s1.hasPrefix && decide (s1.nPrefs < 4) then 1 + prefixPasses mem fuel s1 else 1

/-! ## Auxiliary definitions for the statements about the prefix scan -/

/-- The group (0 to 3) the `switch` of `x86_get_prefixes` assigns to a byte,
`none` for its `default` case. -/
def prefixGroup (b : Nat) : Option Nat :=
  if (prefixSwitch b true).1 then some (prefixSwitch b true).2.toNat else none

/-- The state after a pass of the loop body that accepts the byte `b` of
group `g`: slot written, `size` and `nPrefs` incremented, cursor moved. -/
def acceptPrefix (s : PrefixScan) (b g : Nat) : PrefixScan :=
  { s with
    group := (g : Int)
    inst := { s.inst with prefixes := s.inst.prefixes.set g b, size := (s.inst.size + 1) % 256 }
    nPrefs := (s.nPrefs + 1) % 256
    byte := s.byte + 1 }

/-- The state after accepting the bytes of `pre` one after the other. -/
def acceptAll (s : PrefixScan) : List Nat → PrefixScan
  | [] => s
  | p :: ps => acceptAll (acceptPrefix s p ((prefixGroup p).getD 0)) ps

/-- The slots after storing each byte of `pre` in the slot of its group. -/
def storeAll (slots : List Nat) : List Nat → List Nat
  | [] => slots
  | p :: ps => storeAll (slots.set ((prefixGroup p).getD 0) p) ps

/-- Number of populated (non-zero) prefix slots. -/
def populated (slots : List Nat) : Nat := (slots.filter (fun v => decide (v ≠ 0))).length

/-- The bytes of `pre` can be accepted one after the other into `slots`:
each is a prefix byte and meets an empty slot of its group. -/
def acceptable (slots : List Nat) : List Nat → Prop
  | [] => True
  | p :: ps => ∃ g, prefixGroup p = some g ∧ slots.getD g 0 = 0 ∧ acceptable (slots.set g p) ps

/-- Every byte of `pre` is a legacy prefix and no two are of the same group. -/
def distinctGroups (pre : List Nat) : Prop :=
  (∀ p ∈ pre, prefixGroup p ≠ none) ∧ (pre.map prefixGroup).Nodup

/-- The record a scan leaves when it has accepted exactly the bytes of `pre`
into the record `i`. -/
def recordAfter (i : x86.inst) (pre : List Nat) : x86.inst :=
  { i with prefixes := storeAll i.prefixes pre, size := (i.size + pre.length) % 256 }

/-- The four slots are well formed: four of them, and slot `g` is empty or
holds a prefix byte of group `g`. -/
def slotsOK (slots : List Nat) : Prop :=
  slots.length = 4 ∧ ∀ g, g < 4 → slots.getD g 0 = 0 ∨ prefixGroup (slots.getD g 0) = some g

/-- The invariant of the scan loop on a record that started all-zero. -/
def scanInv (s : PrefixScan) : Prop :=
  slotsOK s.inst.prefixes ∧ s.inst.size = s.nPrefs ∧ s.nPrefs = populated s.inst.prefixes

/-- Attribute tables in which no opcode carries any attribute. -/
def noAttrTables : Nat → Nat → Nat := fun _ _ => 0

/-- Attribute tables whose only entry is the two-byte opcode `0F 1F`
(multi-byte NOP), flagged as taking a ModR/M byte. -/
def nopTables : Nat → Nat → Nat :=
  fun table op => if table = 1 ∧ op = 0x1F then x86.attributes.modrm else 0

/-- The state in which the opcode resolver starts at address `byte`: primary
table selected (selector 0), all-zero record. -/
def opcodeStart (byte : Nat) : OpcodeScan :=
  { byte := byte, table := 0, inst := x86.inst.fresh }

/-! ## The `switch`: which bytes are prefixes -/

theorem prefixSwitch_eq (b : Nat) (h : Bool) :
    prefixSwitch b h =
      if b = 0xF0 ∨ b = 0xF2 ∨ b = 0xF3 then (h, 0)
      else if b = 0x2E ∨ b = 0x36 ∨ b = 0x3E ∨ b = 0x26 ∨ b = 0x64 ∨ b = 0x65 then (h, 1)
      else if b = 0x66 then (h, 2)
      else if b = 0x67 then (h, 3)
      else (false, -1) := by
  unfold prefixSwitch
  simp only [x86_PREFIX_LOCK, x86_PREFIX_REPNE_REPNZ, x86_PREFIX_REP_REPE_REPZ,
    x86_PREFIX_SEGMENT_CS, x86_PREFIX_SEGMENT_SS, x86_PREFIX_SEGMENT_DS, x86_PREFIX_SEGMENT_ES,
    x86_PREFIX_SEGMENT_FS, x86_PREFIX_SEGMENT_GS, x86_PREFIX_BRANCH_NOT_TAKEN,
    x86_PREFIX_BRANCH_TAKEN, x86_PREFIX_OPERAND_OVERRIDE, x86_PREFIX_ADDRESS_OVERRIDE]
  by_cases h1 : b = 0xF0 ∨ b = 0xF2 ∨ b = 0xF3
  · rw [if_pos h1, if_pos h1]
  · rw [if_neg h1, if_neg h1]
    by_cases h2 : b = 0x2E ∨ b = 0x36 ∨ b = 0x3E ∨ b = 0x26 ∨ b = 0x64 ∨ b = 0x65
    · rw [if_pos h2, if_pos (by omega)]
    · rw [if_neg h2, if_neg (by omega)]

theorem prefixGroup_eq (b : Nat) :
    prefixGroup b =
      if b = 0xF0 ∨ b = 0xF2 ∨ b = 0xF3 then some 0
      else if b = 0x2E ∨ b = 0x36 ∨ b = 0x3E ∨ b = 0x26 ∨ b = 0x64 ∨ b = 0x65 then some 1
      else if b = 0x66 then some 2
      else if b = 0x67 then some 3
      else none := by
  unfold prefixGroup
  rw [prefixSwitch_eq]
  split_ifs <;> simp_all

theorem prefixGroup_some {b g : Nat} (hg : prefixGroup b = some g) :
    g < 4 ∧ b ≠ 0 ∧ b < 256 ∧ ∀ h, prefixSwitch b h = (h, (g : Int)) := by
  rw [prefixGroup_eq] at hg
  split_ifs at hg with h1 h2 h3 h4 <;> simp at hg <;> subst hg <;>
    refine ⟨by omega, by omega, by omega, fun h => ?_⟩ <;>
    rw [prefixSwitch_eq] <;> simp [*]

theorem prefixGroup_none {b : Nat} (hg : prefixGroup b = none) (h : Bool) :
    prefixSwitch b h = (false, -1) := by
  rw [prefixGroup_eq] at hg
  split_ifs at hg with h1 h2 h3 h4
  rw [prefixSwitch_eq]; simp [*]

/-! ## One pass of the loop body -/

theorem prefixBody_accept (mem : Memory) (s : PrefixScan) (g : Nat)
    (hp : s.hasPrefix = true) (hg : prefixGroup (load mem s.byte) = some g)
    (hs : s.inst.prefixes.getD g 0 = 0) :
    prefixBody mem s = (false, acceptPrefix s (load mem s.byte) g) := by
  obtain ⟨_, _, _, hsw⟩ := prefixGroup_some hg
  rw [List.getD_eq_getElem?_getD] at hs
  unfold prefixBody acceptPrefix
  simp [hsw, hp, hs]

theorem prefixBody_dup (mem : Memory) (s : PrefixScan) (g : Nat)
    (hp : s.hasPrefix = true) (hg : prefixGroup (load mem s.byte) = some g)
    (hs : s.inst.prefixes.getD g 0 ≠ 0) :
    prefixBody mem s = (true, { s with group := (g : Int) }) := by
  obtain ⟨_, _, _, hsw⟩ := prefixGroup_some hg
  rw [List.getD_eq_getElem?_getD] at hs
  unfold prefixBody
  simp [hsw, hp, hs]

theorem prefixBody_non (mem : Memory) (s : PrefixScan)
    (hg : prefixGroup (load mem s.byte) = none) :
    prefixBody mem s =
      (false, { s with hasPrefix := false, group := -1, byte := s.byte + 1 }) := by
  unfold prefixBody
  simp [prefixGroup_none hg]

/-! ## The loop -/

theorem prefixLoop_accept (mem : Memory) (fuel : Nat) (s : PrefixScan) (g : Nat)
    (hp : s.hasPrefix = true) (hg : prefixGroup (load mem s.byte) = some g)
    (hs : s.inst.prefixes.getD g 0 = 0) :
    prefixLoop mem (fuel + 1) s =
      if (s.nPrefs + 1) % 256 < 4 then prefixLoop mem fuel (acceptPrefix s (load mem s.byte) g)
      else acceptPrefix s (load mem s.byte) g := by
  rw [prefixLoop, prefixBody_accept mem s g hp hg hs]
  simp [acceptPrefix, hp]

theorem prefixLoop_dup (mem : Memory) (fuel : Nat) (s : PrefixScan) (g : Nat)
    (hp : s.hasPrefix = true) (hg : prefixGroup (load mem s.byte) = some g)
    (hs : s.inst.prefixes.getD g 0 ≠ 0) :
    prefixLoop mem (fuel + 1) s = { s with group := (g : Int) } := by
  rw [prefixLoop, prefixBody_dup mem s g hp hg hs]

theorem prefixLoop_non (mem : Memory) (fuel : Nat) (s : PrefixScan)
    (hg : prefixGroup (load mem s.byte) = none) :
    prefixLoop mem (fuel + 1) s =
      { s with hasPrefix := false, group := -1, byte := s.byte + 1 } := by
  rw [prefixLoop, prefixBody_non mem s hg]
  simp

/-- Fuel beyond the passes the loop can still make changes nothing: a pass
either ends the loop or increments `nPrefs`, and the loop ends at 4. -/
theorem prefixLoop_fuel (mem : Memory) :
    ∀ (k : Nat) (s : PrefixScan) (fuel : Nat), s.nPrefs + k = 4 → 0 < k → k ≤ fuel →
      prefixLoop mem fuel s = prefixLoop mem k s := by
  intro k
  induction k with
  | zero => intro s fuel _ h; omega
  | succ k ih =>
    intro s fuel hn _ hf
    obtain ⟨f, rfl⟩ : ∃ f, fuel = f + 1 := ⟨fuel - 1, by omega⟩
    rw [prefixLoop, prefixLoop]
    rcases hb : prefixBody mem s with ⟨r, s1⟩
    cases r with
    | true => rfl
    | false =>
      simp only
      by_cases hc : (s1.hasPrefix && decide (s1.nPrefs < 4)) = true
      · rw [if_pos hc, if_pos hc]
        have hn1 : s1.nPrefs = s.nPrefs + 1 := by
          unfold prefixBody at hb
          simp only at hb
          split_ifs at hb with h1 h2
          · simp at hb
          · simp at hb
            obtain ⟨_, rfl⟩ := hb
            simp; omega
          · simp at hb
            obtain ⟨_, rfl⟩ := hb
            simp at hc
            simp at h1
            simp [h1] at hc
        simp at hc
        exact ih s1 f (by omega) (by omega) (by omega)
      · rw [if_neg hc, if_neg hc]

/-- The loop of `x86_get_prefixes` ends within four passes: run with any
fuel of at least 4 it reaches the state `x86_get_prefixes_scan` returns. -/
theorem x86_get_prefixes_scan_fuel (mem : Memory) (a : Nat) (i : x86.inst) (fuel : Nat)
    (hf : 4 ≤ fuel) :
    prefixLoop mem fuel (prefixStart a i) = x86_get_prefixes_scan mem a i :=
  prefixLoop_fuel mem 4 (prefixStart a i) fuel rfl (by omega) hf

/-! ## Accepting a run of prefixes -/

theorem acceptAll_hasPrefix (pre : List Nat) : ∀ s : PrefixScan,
    (acceptAll s pre).hasPrefix = s.hasPrefix := by
  induction pre with
  | nil => intro s; rfl
  | cons p ps ih => intro s; rw [acceptAll, ih]; rfl

theorem acceptAll_byte (pre : List Nat) : ∀ s : PrefixScan,
    (acceptAll s pre).byte = s.byte + pre.length := by
  induction pre with
  | nil => intro s; rfl
  | cons p ps ih =>
    intro s
    rw [acceptAll, ih]
    simp [acceptPrefix]; omega

theorem acceptAll_nPrefs (pre : List Nat) : ∀ s : PrefixScan, s.nPrefs + pre.length ≤ 4 →
    (acceptAll s pre).nPrefs = s.nPrefs + pre.length := by
  induction pre with
  | nil => intro s _; rfl
  | cons p ps ih =>
    intro s h
    simp only [List.length_cons] at h
    have e : (acceptPrefix s p ((prefixGroup p).getD 0)).nPrefs = s.nPrefs + 1 := by
      simp only [acceptPrefix]; omega
    rw [acceptAll, ih _ (by rw [e]; omega), e]
    simp only [List.length_cons]; omega

theorem acceptAll_inst (pre : List Nat) : ∀ s : PrefixScan, s.inst.size < 256 →
    (acceptAll s pre).inst = recordAfter s.inst pre := by
  induction pre with
  | nil =>
    intro s h
    simp [acceptAll, recordAfter, storeAll, Nat.mod_eq_of_lt h]
  | cons p ps ih =>
    intro s h
    rw [acceptAll, ih _ (by simp only [acceptPrefix]; omega)]
    simp only [recordAfter, acceptPrefix, storeAll, List.length_cons]
    congr 1
    omega

theorem prefixLoop_run (mem : Memory) (k : Nat) (pre : List Nat) : ∀ s : PrefixScan,
    s.hasPrefix = true → bufferAt mem s.byte pre → acceptable s.inst.prefixes pre →
    s.nPrefs + pre.length < 4 →
    prefixLoop mem (pre.length + k) s = prefixLoop mem k (acceptAll s pre) := by
  induction pre with
  | nil => intro s _ _ _ _; simp [acceptAll]
  | cons p ps ih =>
    intro s hp hb ha hn
    obtain ⟨hl, hb⟩ := hb
    obtain ⟨g, hg, hs, ha⟩ := ha
    simp only [List.length_cons] at hn
    have e : (p :: ps).length + k = (ps.length + k) + 1 := by simp only [List.length_cons]; omega
    rw [e, prefixLoop_accept mem _ s g hp (by rw [hl]; exact hg) hs, if_pos (by omega), hl]
    have hg0 : (prefixGroup p).getD 0 = g := by rw [hg]; rfl
    rw [acceptAll, hg0]
    exact ih _ hp hb ha (by simp only [acceptPrefix]; omega)

theorem prefixLoop_full (mem : Memory) (k : Nat) (pre : List Nat) : ∀ s : PrefixScan,
    s.hasPrefix = true → bufferAt mem s.byte pre → acceptable s.inst.prefixes pre →
    pre ≠ [] → s.nPrefs + pre.length = 4 →
    prefixLoop mem (pre.length + k) s = acceptAll s pre := by
  induction pre with
  | nil => intro s _ _ _ h; exact absurd rfl h
  | cons p ps ih =>
    intro s hp hb ha _ hn
    obtain ⟨hl, hb⟩ := hb
    obtain ⟨g, hg, hs, ha⟩ := ha
    simp only [List.length_cons] at hn
    have e : (p :: ps).length + k = (ps.length + k) + 1 := by simp only [List.length_cons]; omega
    have hg0 : (prefixGroup p).getD 0 = g := by rw [hg]; rfl
    rw [e, prefixLoop_accept mem _ s g hp (by rw [hl]; exact hg) hs, hl, acceptAll, hg0]
    cases ps with
    | nil =>
      simp only [List.length_nil] at hn
      rw [if_neg (by omega)]; rfl
    | cons q qs =>
      simp only [List.length_cons] at hn
      rw [if_pos (by omega)]
      exact ih _ hp hb ha (by simp) (by simp only [acceptPrefix, List.length_cons]; omega)

/-! ## The slots after a run of prefixes of distinct groups -/

theorem storeAll_length (pre : List Nat) : ∀ slots : List Nat,
    (storeAll slots pre).length = slots.length := by
  induction pre with
  | nil => intro slots; rfl
  | cons p ps ih => intro slots; rw [storeAll, ih, List.length_set]

theorem storeAll_getD_other (g : Nat) (pre : List Nat) : ∀ slots : List Nat,
    some g ∉ pre.map prefixGroup → (∀ p ∈ pre, prefixGroup p ≠ none) →
    (storeAll slots pre).getD g 0 = slots.getD g 0 := by
  induction pre with
  | nil => intro slots _ _; rfl
  | cons p ps ih =>
    intro slots hg hall
    simp only [List.map_cons, List.mem_cons, not_or] at hg
    obtain ⟨gp, hgp⟩ := Option.ne_none_iff_exists'.mp (hall p (List.mem_cons_self p ps))
    have hne : gp ≠ g := by
      intro h; apply hg.1; rw [hgp, h]
    rw [storeAll, ih _ hg.2 (fun q hq => hall q (List.mem_cons_of_mem p hq)), hgp]
    simp only [Option.getD_some, List.getD_eq_getElem?_getD]
    rw [List.getElem?_set_ne hne]

theorem storeAll_getD_mem (pre : List Nat) : ∀ slots : List Nat, slots.length = 4 →
    distinctGroups pre → ∀ p ∈ pre, ∀ g, prefixGroup p = some g →
    (storeAll slots pre).getD g 0 = p := by
  induction pre with
  | nil => intro slots _ _ p hp; exact absurd hp (List.not_mem_nil p)
  | cons a ps ih =>
    intro slots hlen hd p hp g hg
    obtain ⟨hall, hnd⟩ := hd
    simp only [List.map_cons, List.nodup_cons] at hnd
    have hall' : ∀ q ∈ ps, prefixGroup q ≠ none := fun q hq => hall q (List.mem_cons_of_mem a hq)
    rw [storeAll]
    rcases List.mem_cons.mp hp with rfl | hps
    · have hother : some g ∉ ps.map prefixGroup := by rw [← hg]; exact hnd.1
      rw [storeAll_getD_other g ps _ hother hall', hg]
      simp only [Option.getD_some, List.getD_eq_getElem?_getD]
      rw [List.getElem?_set_self (by rw [hlen]; exact (prefixGroup_some hg).1)]
      rfl
    · exact ih _ (by rw [List.length_set]; exact hlen) ⟨hall', hnd.2⟩ p hps g hg

theorem acceptable_of_distinct (pre : List Nat) : ∀ slots : List Nat,
    distinctGroups pre → (∀ p ∈ pre, ∀ g, prefixGroup p = some g → slots.getD g 0 = 0) →
    acceptable slots pre := by
  induction pre with
  | nil => intro slots _ _; trivial
  | cons a ps ih =>
    intro slots hd hz
    obtain ⟨hall, hnd⟩ := hd
    simp only [List.map_cons, List.nodup_cons] at hnd
    obtain ⟨g, hg⟩ := Option.ne_none_iff_exists'.mp (hall a (List.mem_cons_self a ps))
    refine ⟨g, hg, hz a (List.mem_cons_self a ps) g hg, ?_⟩
    refine ih _ ⟨fun q hq => hall q (List.mem_cons_of_mem a hq), hnd.2⟩ ?_
    intro q hq gq hgq
    have hne : g ≠ gq := by
      intro h
      apply hnd.1
      rw [hg, h, ← hgq]
      exact List.mem_map_of_mem prefixGroup hq
    simp only [List.getD_eq_getElem?_getD]
    rw [List.getElem?_set_ne hne]
    have := hz q (List.mem_cons_of_mem a hq) gq hgq
    simpa only [List.getD_eq_getElem?_getD] using this

theorem acceptable_fresh (pre : List Nat) (hd : distinctGroups pre) :
    acceptable x86.inst.fresh.prefixes pre := by
  apply acceptable_of_distinct pre _ hd
  intro p _ g hg
  have hlt := (prefixGroup_some hg).1
  have h4 : g = 0 ∨ g = 1 ∨ g = 2 ∨ g = 3 := by omega
  rcases h4 with rfl | rfl | rfl | rfl <;> rfl

/-! ## How a scan ends -/

theorem bufferAt_append (mem : Memory) (pre rest : List Nat) : ∀ a : Nat,
    bufferAt mem a (pre ++ rest) ↔ bufferAt mem a pre ∧ bufferAt mem (a + pre.length) rest := by
  induction pre with
  | nil => intro a; simp [bufferAt]
  | cons p ps ih =>
    intro a
    have e : a + 1 + ps.length = a + (ps.length + 1) := by omega
    rw [List.cons_append]
    show (load mem a = p ∧ bufferAt mem (a + 1) (ps ++ rest)) ↔
      (load mem a = p ∧ bufferAt mem (a + 1) ps) ∧ bufferAt mem (a + (ps.length + 1)) rest
    rw [ih (a + 1), e, and_assoc]

theorem acceptAll_prefixes (pre : List Nat) : ∀ s : PrefixScan,
    (acceptAll s pre).inst.prefixes = storeAll s.inst.prefixes pre := by
  induction pre with
  | nil => intro s; rfl
  | cons p ps ih => intro s; rw [acceptAll, ih]; rfl

/-- The scan ends at a non-prefix byte: the run before it is accepted, the
flag is cleared and the cursor moves past the non-prefix byte. -/
theorem scan_non (mem : Memory) (a : Nat) (i : x86.inst) (pre : List Nat) (q : Nat)
    (hb : bufferAt mem a (pre ++ [q])) (ha : acceptable i.prefixes pre)
    (hl : pre.length < 4) (hq : prefixGroup q = none) :
    x86_get_prefixes_scan mem a i =
      { acceptAll (prefixStart a i) pre with
        hasPrefix := false, group := -1, byte := a + pre.length + 1 } := by
  obtain ⟨hb1, hb2, _⟩ := (bufferAt_append mem pre [q] a).mp hb
  obtain ⟨k, hk⟩ : ∃ k, 4 = pre.length + (k + 1) := ⟨3 - pre.length, by omega⟩
  unfold x86_get_prefixes_scan
  rw [hk, prefixLoop_run mem (k + 1) pre (prefixStart a i) rfl hb1 ha (by simpa [prefixStart] using hl)]
  have hby : (acceptAll (prefixStart a i) pre).byte = a + pre.length := acceptAll_byte pre _
  rw [prefixLoop_non mem k _ (by rw [hby, hb2]; exact hq), hby]

/-- The scan ends at a prefix byte whose slot is occupied: the run before it
is accepted and nothing else changes but the local `group`. -/
theorem scan_dup (mem : Memory) (a : Nat) (i : x86.inst) (pre : List Nat) (q g : Nat)
    (hb : bufferAt mem a (pre ++ [q])) (ha : acceptable i.prefixes pre)
    (hl : pre.length < 4) (hq : prefixGroup q = some g)
    (hs : (storeAll i.prefixes pre).getD g 0 ≠ 0) :
    x86_get_prefixes_scan mem a i =
      { acceptAll (prefixStart a i) pre with group := (g : Int) } := by
  obtain ⟨hb1, hb2, _⟩ := (bufferAt_append mem pre [q] a).mp hb
  obtain ⟨k, hk⟩ : ∃ k, 4 = pre.length + (k + 1) := ⟨3 - pre.length, by omega⟩
  unfold x86_get_prefixes_scan
  rw [hk, prefixLoop_run mem (k + 1) pre (prefixStart a i) rfl hb1 ha (by simpa [prefixStart] using hl)]
  have hby : (acceptAll (prefixStart a i) pre).byte = a + pre.length := acceptAll_byte pre _
  have hhp : (acceptAll (prefixStart a i) pre).hasPrefix = true := acceptAll_hasPrefix pre _
  rw [prefixLoop_dup mem k _ g hhp (by rw [hby, hb2]; exact hq)
    (by rw [acceptAll_prefixes]; exact hs)]

/-- The scan ends after four accepted prefixes, whatever follows them. -/
theorem scan_full (mem : Memory) (a : Nat) (i : x86.inst) (pre : List Nat)
    (hb : bufferAt mem a pre) (ha : acceptable i.prefixes pre) (hl : pre.length = 4) :
    x86_get_prefixes_scan mem a i = acceptAll (prefixStart a i) pre := by
  unfold x86_get_prefixes_scan
  have h := prefixLoop_full mem 0 pre (prefixStart a i) rfl hb ha
    (by intro h; rw [h] at hl; simp at hl) (by simp [prefixStart, hl])
  rw [hl] at h
  exact h

/-! ## The loop invariant -/

theorem prefixLoop_inv (mem : Memory) (P : PrefixScan → Prop)
    (hbody : ∀ s, s.hasPrefix = true → P s → P (prefixBody mem s).2) :
    ∀ (fuel : Nat) (s : PrefixScan), s.hasPrefix = true → P s → P (prefixLoop mem fuel s) := by
  intro fuel
  induction fuel with
  | zero => intro s _ h; exact h
  | succ f ih =>
    intro s hp h
    have hb := hbody s hp h
    rw [prefixLoop]
    rcases hbs : prefixBody mem s with ⟨r, s1⟩
    rw [hbs] at hb
    cases r with
    | true => exact hb
    | false =>
      simp only
      by_cases hc : (s1.hasPrefix && decide (s1.nPrefs < 4)) = true
      · rw [if_pos hc]
        simp only [Bool.and_eq_true] at hc
        exact ih s1 hc.1 hb
      · rw [if_neg hc]; exact hb

theorem populated_le (slots : List Nat) : populated slots ≤ slots.length :=
  List.length_filter_le _ slots

theorem populated_set (slots : List Nat) (g b : Nat) (hlen : slots.length = 4) (hg : g < 4)
    (hb : b ≠ 0) (hs : slots.getD g 0 = 0) :
    populated (slots.set g b) = populated slots + 1 := by
  match slots, hlen with
  | [p0, p1, p2, p3], _ =>
    have h4 : g = 0 ∨ g = 1 ∨ g = 2 ∨ g = 3 := by omega
    rcases h4 with rfl | rfl | rfl | rfl <;> simp at hs <;>
      by_cases h0 : p0 = 0 <;> by_cases h1 : p1 = 0 <;> by_cases h2 : p2 = 0 <;>
      by_cases h3 : p3 = 0 <;> simp_all [populated, List.filter]

theorem slotsOK_set (slots : List Nat) (g b : Nat) (hok : slotsOK slots)
    (hg : prefixGroup b = some g) : slotsOK (slots.set g b) := by
  obtain ⟨hlen, hall⟩ := hok
  refine ⟨by rw [List.length_set]; exact hlen, ?_⟩
  intro g' hg'
  simp only [List.getD_eq_getElem?_getD]
  by_cases he : g = g'
  · subst he
    rw [List.getElem?_set_self (by rw [hlen]; exact hg')]
    right; exact hg
  · rw [List.getElem?_set_ne he]
    simpa only [List.getD_eq_getElem?_getD] using hall g' hg'

theorem scanInv_body (mem : Memory) (s : PrefixScan) (hp : s.hasPrefix = true)
    (h : scanInv s) : scanInv (prefixBody mem s).2 := by
  obtain ⟨hok, hsz, hn⟩ := h
  rcases hg : prefixGroup (load mem s.byte) with _ | g
  · rw [prefixBody_non mem s hg]; exact ⟨hok, hsz, hn⟩
  · by_cases hs : s.inst.prefixes.getD g 0 = 0
    · rw [prefixBody_accept mem s g hp hg hs]
      obtain ⟨hlt, hb0, _, _⟩ := prefixGroup_some hg
      have hpop := populated_set s.inst.prefixes g _ hok.1 hlt hb0 hs
      have hle := populated_le (s.inst.prefixes.set g (load mem s.byte))
      rw [List.length_set, hok.1] at hle
      refine ⟨slotsOK_set _ _ _ hok hg, ?_, ?_⟩
      · simp only [acceptPrefix]; rw [hsz]
      · simp only [acceptPrefix]; omega
    · rw [prefixBody_dup mem s g hp hg hs]; exact ⟨hok, hsz, hn⟩

theorem scanInv_scan (mem : Memory) (a : Nat) :
    scanInv (x86_get_prefixes_scan mem a x86.inst.fresh) := by
  unfold x86_get_prefixes_scan
  refine prefixLoop_inv mem scanInv (scanInv_body mem) 4 _ rfl ⟨⟨rfl, ?_⟩, rfl, rfl⟩
  intro g hg
  have h4 : g = 0 ∨ g = 1 ∨ g = 2 ∨ g = 3 := by omega
  rcases h4 with rfl | rfl | rfl | rfl <;> exact Or.inl rfl

/-! ## Records left by a scan from the all-zero record -/

theorem distinctGroups_length_le (pre : List Nat) (hd : distinctGroups pre) : pre.length ≤ 4 := by
  obtain ⟨hall, hnd⟩ := hd
  have hsub : pre.map prefixGroup ⊆ [some 0, some 1, some 2, some 3] := by
    intro x hx
    obtain ⟨p, hp, rfl⟩ := List.mem_map.mp hx
    obtain ⟨g, hg⟩ := Option.ne_none_iff_exists'.mp (hall p hp)
    have hlt := (prefixGroup_some hg).1
    rw [hg]
    have h4 : g = 0 ∨ g = 1 ∨ g = 2 ∨ g = 3 := by omega
    rcases h4 with rfl | rfl | rfl | rfl <;> simp
  have h := (List.subperm_of_subset hnd hsub).length_le
  simpa using h

theorem scan_record (a : Nat) (pre : List Nat) :
    (acceptAll (prefixStart a x86.inst.fresh) pre).inst = recordAfter x86.inst.fresh pre :=
  acceptAll_inst pre (prefixStart a x86.inst.fresh) (by show (0 : Nat) < 256; omega)

/-- A run of prefixes of distinct groups followed by a prefix of a group
already met: the record and the cursor with which the scan returns. -/
theorem scan_dup_fresh (mem : Memory) (a : Nat) (pre : List Nat) (q g : Nat)
    (hb : bufferAt mem a (pre ++ [q])) (hd : distinctGroups pre)
    (hq : prefixGroup q = some g) (hmem : some g ∈ pre.map prefixGroup) :
    x86_get_prefixes mem a x86.inst.fresh = recordAfter x86.inst.fresh pre ∧
      x86_get_prefixes_cursor mem a x86.inst.fresh = a + pre.length := by
  have ha := acceptable_fresh pre hd
  have hle := distinctGroups_length_le pre hd
  unfold x86_get_prefixes x86_get_prefixes_cursor
  rcases Nat.lt_or_ge pre.length 4 with hl | hl
  · obtain ⟨p, hp, hpg⟩ := List.mem_map.mp hmem
    have hslot : (storeAll x86.inst.fresh.prefixes pre).getD g 0 = p :=
      storeAll_getD_mem pre x86.inst.fresh.prefixes rfl hd p hp g hpg
    have hs : (storeAll x86.inst.fresh.prefixes pre).getD g 0 ≠ 0 := by
      rw [hslot]; exact (prefixGroup_some hpg).2.1
    rw [scan_dup mem a _ pre q g hb ha hl hq hs]
    exact ⟨scan_record a pre, acceptAll_byte pre _⟩
  · have hb1 := ((bufferAt_append mem pre [q] a).mp hb).1
    rw [scan_full mem a _ pre hb1 ha (by omega)]
    exact ⟨scan_record a pre, acceptAll_byte pre _⟩

/-- A run of fewer than four prefixes of distinct groups followed by a
non-prefix byte. -/
theorem scan_non_fresh (mem : Memory) (a : Nat) (pre : List Nat) (q : Nat)
    (hb : bufferAt mem a (pre ++ [q])) (hd : distinctGroups pre) (hl : pre.length < 4)
    (hq : prefixGroup q = none) :
    x86_get_prefixes mem a x86.inst.fresh = recordAfter x86.inst.fresh pre ∧
      x86_get_prefixes_cursor mem a x86.inst.fresh = a + pre.length + 1 ∧
      (x86_get_prefixes_scan mem a x86.inst.fresh).hasPrefix = false := by
  have ha := acceptable_fresh pre hd
  unfold x86_get_prefixes x86_get_prefixes_cursor
  rw [scan_non mem a _ pre q hb ha hl hq]
  exact ⟨scan_record a pre, rfl, rfl⟩

/-- Four prefixes of distinct groups, whatever follows. -/
theorem scan_full_fresh (mem : Memory) (a : Nat) (pre : List Nat)
    (hb : bufferAt mem a pre) (hd : distinctGroups pre) (hl : pre.length = 4) :
    x86_get_prefixes_scan mem a x86.inst.fresh =
      acceptAll (prefixStart a x86.inst.fresh) pre :=
  scan_full mem a _ pre hb (acceptable_fresh pre hd) hl

theorem fresh_getD (g : Nat) : x86.inst.fresh.prefixes.getD g 0 = 0 := by
  rcases g with _ | _ | _ | _ | _ | g <;> rfl

/-- The record left after accepting a run of prefixes of distinct groups
into the all-zero record: each byte sits in the slot of its group, the other
slots are empty and `size` counts the run. -/
theorem recordAfter_fresh (pre : List Nat) (hd : distinctGroups pre) :
    (∀ p ∈ pre, ∀ g, prefixGroup p = some g →
        (recordAfter x86.inst.fresh pre).prefixes.getD g 0 = p) ∧
      (∀ g, some g ∉ pre.map prefixGroup →
        (recordAfter x86.inst.fresh pre).prefixes.getD g 0 = 0) ∧
      (recordAfter x86.inst.fresh pre).size = pre.length := by
  have hle := distinctGroups_length_le pre hd
  refine ⟨?_, ?_, ?_⟩
  · intro p hp g hg
    exact storeAll_getD_mem pre x86.inst.fresh.prefixes rfl hd p hp g hg
  · intro g hg
    show (storeAll x86.inst.fresh.prefixes pre).getD g 0 = 0
    rw [storeAll_getD_other g pre _ hg hd.1, fresh_getD]
  · show (0 + pre.length) % 256 = pre.length
    omega

/-- A run of prefixes of distinct groups followed by a non-prefix byte: the
record with which the scan returns, whether the loop ends at the non-prefix
byte or, after four prefixes, before it. -/
theorem scan_ok_fresh (mem : Memory) (a : Nat) (pre : List Nat) (n : Nat)
    (hb : bufferAt mem a (pre ++ [n])) (hd : distinctGroups pre) (hn : prefixGroup n = none) :
    x86_get_prefixes mem a x86.inst.fresh = recordAfter x86.inst.fresh pre := by
  have hle := distinctGroups_length_le pre hd
  rcases Nat.lt_or_ge pre.length 4 with hl | hl
  · exact (scan_non_fresh mem a pre n hb hd hl hn).1
  · have hb1 := ((bufferAt_append mem pre [n] a).mp hb).1
    unfold x86_get_prefixes
    rw [scan_full_fresh mem a pre hb1 hd (by omega)]
    exact scan_record a pre

/-! ## The claims about `x86_get_prefixes` -/

/-- C1 (counterexample): started on the same all-zero record, the record
`x86_get_prefixes` leaves for `[0xF0, 0xF0, 0x90]` is the record it leaves
for `[0xF0, 0x90]`; the function returns `void`, so the two outcomes are not
unequal. -/
theorem x86_get_prefixes_duplicate_same_outcome :
    ¬ (x86_get_prefixes (memOf [0xF0, 0xF0, 0x90]) 0 x86.inst.fresh ≠
        x86_get_prefixes (memOf [0xF0, 0x90]) 0 x86.inst.fresh) := by
  decide

/-- C1 (amended): when the leading bytes are a run of legacy prefixes of
distinct groups followed by a prefix `q` of a group already in the run,
`x86_get_prefixes` on the all-zero record returns without signalling
anything: the record it leaves is the record a scan of the same run followed
by a non-prefix byte `n` leaves, namely the run accepted and nothing more. -/
theorem x86_get_prefixes_duplicate_silent (mem mem' : Memory) (a a' : Nat) (pre : List Nat)
    (q g n : Nat) (hb : bufferAt mem a (pre ++ [q])) (hb' : bufferAt mem' a' (pre ++ [n]))
    (hd : distinctGroups pre) (hq : prefixGroup q = some g)
    (hmem : some g ∈ pre.map prefixGroup) (hn : prefixGroup n = none) :
    x86_get_prefixes mem a x86.inst.fresh = x86_get_prefixes mem' a' x86.inst.fresh ∧
      x86_get_prefixes mem a x86.inst.fresh = recordAfter x86.inst.fresh pre := by
  have h1 := (scan_dup_fresh mem a pre q g hb hd hq hmem).1
  have h2 := scan_ok_fresh mem' a' pre n hb' hd hn
  exact ⟨by rw [h1, h2], h1⟩

/-- C1 (witness): the amended statement at `[0xF0, 0xF0, 0x90]` against
`[0xF0, 0x90]`. -/
theorem x86_get_prefixes_duplicate_silent_witness :
    bufferAt (memOf [0xF0, 0xF0, 0x90]) 0 ([0xF0] ++ [0xF0]) ∧
      bufferAt (memOf [0xF0, 0x90]) 0 ([0xF0] ++ [0x90]) ∧
      distinctGroups [0xF0] ∧ prefixGroup 0xF0 = some 0 ∧
      some 0 ∈ [0xF0].map prefixGroup ∧ prefixGroup 0x90 = none ∧
      x86_get_prefixes (memOf [0xF0, 0xF0, 0x90]) 0 x86.inst.fresh =
        x86_get_prefixes (memOf [0xF0, 0x90]) 0 x86.inst.fresh ∧
      x86_get_prefixes (memOf [0xF0, 0xF0, 0x90]) 0 x86.inst.fresh =
        recordAfter x86.inst.fresh [0xF0] :=
  have hb : bufferAt (memOf [0xF0, 0xF0, 0x90]) 0 ([0xF0] ++ [0xF0]) := ⟨rfl, rfl, trivial⟩
  have hb' : bufferAt (memOf [0xF0, 0x90]) 0 ([0xF0] ++ [0x90]) := ⟨rfl, rfl, trivial⟩
  have hd : distinctGroups [0xF0] := by unfold distinctGroups; decide
  have hq : prefixGroup 0xF0 = some 0 := by decide
  have hmem : some 0 ∈ [0xF0].map prefixGroup := by decide
  have hn : prefixGroup 0x90 = none := by decide
  ⟨hb, hb', hd, hq, hmem, hn,
    x86_get_prefixes_duplicate_silent _ _ 0 0 [0xF0] 0xF0 0 0x90 hb hb' hd hq hmem hn⟩

/-- C2: started on the all-zero record, when `x86_get_prefixes` has accepted
a run `pre` of prefixes of distinct groups and meets a prefix `q` whose
group `g` is already in the run, it stops without overwriting: slot `g`
still holds the prefix of the run that has group `g`, every prefix of the
run is in its slot, the slots of the other groups are still empty, `size` is
the length of the run, the cursor stands on `q`, and nothing else in the
record has changed. -/
theorem x86_get_prefixes_duplicate_keeps_first (mem : Memory) (a : Nat) (pre : List Nat)
    (q g : Nat) (hb : bufferAt mem a (pre ++ [q])) (hd : distinctGroups pre)
    (hl : pre.length < 4) (hq : prefixGroup q = some g)
    (hmem : some g ∈ pre.map prefixGroup) :
    (∃ p ∈ pre, prefixGroup p = some g ∧
        (x86_get_prefixes mem a x86.inst.fresh).prefixes.getD g 0 = p) ∧
      (∀ p ∈ pre, ∀ gp, prefixGroup p = some gp →
        (x86_get_prefixes mem a x86.inst.fresh).prefixes.getD gp 0 = p) ∧
      (∀ g', some g' ∉ pre.map prefixGroup →
        (x86_get_prefixes mem a x86.inst.fresh).prefixes.getD g' 0 = 0) ∧
      (x86_get_prefixes mem a x86.inst.fresh).size = pre.length ∧
      (x86_get_prefixes_scan mem a x86.inst.fresh).nPrefs = pre.length ∧
      x86_get_prefixes_cursor mem a x86.inst.fresh = a + pre.length ∧
      x86_get_prefixes mem a x86.inst.fresh =
        { x86.inst.fresh with
          prefixes := (x86_get_prefixes mem a x86.inst.fresh).prefixes
          size := pre.length } := by
  obtain ⟨hrec, hcur⟩ := scan_dup_fresh mem a pre q g hb hd hq hmem
  obtain ⟨hin, hout, hsize⟩ := recordAfter_fresh pre hd
  have hnp : (x86_get_prefixes_scan mem a x86.inst.fresh).nPrefs = pre.length := by
    obtain ⟨p, hp, hpg⟩ := List.mem_map.mp hmem
    have hs : (storeAll x86.inst.fresh.prefixes pre).getD g 0 ≠ 0 := by
      rw [storeAll_getD_mem pre x86.inst.fresh.prefixes rfl hd p hp g hpg]
      exact (prefixGroup_some hpg).2.1
    rw [scan_dup mem a _ pre q g hb (acceptable_fresh pre hd) hl hq hs]
    show (acceptAll (prefixStart a x86.inst.fresh) pre).nPrefs = pre.length
    rw [acceptAll_nPrefs pre _ (by show 0 + pre.length ≤ 4; omega)]
    show 0 + pre.length = pre.length
    omega
  rw [hrec]
  refine ⟨?_, hin, hout, hsize, hnp, hcur, ?_⟩
  · obtain ⟨p, hp, hpg⟩ := List.mem_map.mp hmem
    exact ⟨p, hp, hpg, hin p hp g hpg⟩
  · show recordAfter x86.inst.fresh pre = _
    unfold recordAfter
    congr 1

/-- C2 (witness): `[0xF0, 0xF3, 0x90]`, where the second Group-1 byte differs
from the first: slot 0 keeps `0xF0` and the count is 1. -/
theorem x86_get_prefixes_duplicate_keeps_first_witness :
    (x86_get_prefixes (memOf [0xF0, 0xF3, 0x90]) 0 x86.inst.fresh).prefixes.getD 0 0 = 0xF0 ∧
      (x86_get_prefixes (memOf [0xF0, 0xF3, 0x90]) 0 x86.inst.fresh).size = 1 ∧
      x86_get_prefixes_cursor (memOf [0xF0, 0xF3, 0x90]) 0 x86.inst.fresh = 1 :=
  have hb : bufferAt (memOf [0xF0, 0xF3, 0x90]) 0 ([0xF0] ++ [0xF3]) := ⟨rfl, rfl, trivial⟩
  have hd : distinctGroups [0xF0] := by unfold distinctGroups; decide
  have h := x86_get_prefixes_duplicate_keeps_first (memOf [0xF0, 0xF3, 0x90]) 0 [0xF0] 0xF3 0
    hb hd (by decide) (by decide) (by decide)
  ⟨h.2.1 0xF0 (by decide) 0 (by decide), h.2.2.2.1, h.2.2.2.2.2.1⟩

/-- C3: for every memory and start address, after `x86_get_prefixes` has run
on the all-zero record there are four slots, slot `g` is empty or holds a
prefix byte of group `g` (so at most one prefix per group is recorded), the
number of accepted prefixes is at most 4, and `size` is that number and is
exactly the number of populated slots. -/
theorem x86_get_prefixes_prefix_set_invariant (mem : Memory) (a : Nat) :
    (x86_get_prefixes mem a x86.inst.fresh).prefixes.length = 4 ∧
      (∀ g, g < 4 →
        (x86_get_prefixes mem a x86.inst.fresh).prefixes.getD g 0 = 0 ∨
        prefixGroup ((x86_get_prefixes mem a x86.inst.fresh).prefixes.getD g 0) = some g) ∧
      (x86_get_prefixes_scan mem a x86.inst.fresh).nPrefs ≤ 4 ∧
      (x86_get_prefixes mem a x86.inst.fresh).size =
        (x86_get_prefixes_scan mem a x86.inst.fresh).nPrefs ∧
      (x86_get_prefixes mem a x86.inst.fresh).size ≤ 4 ∧
      (x86_get_prefixes mem a x86.inst.fresh).size =
        populated (x86_get_prefixes mem a x86.inst.fresh).prefixes := by
  obtain ⟨⟨hlen, hall⟩, hsz, hn⟩ := scanInv_scan mem a
  have hle := populated_le (x86_get_prefixes_scan mem a x86.inst.fresh).inst.prefixes
  rw [hlen] at hle
  unfold x86_get_prefixes
  refine ⟨hlen, hall, by omega, hsz, by omega, by omega⟩

/-- C5: when the buffer starts with four legacy prefixes of four distinct
groups, `x86_get_prefixes` on the all-zero record accepts exactly those
four: each is in the slot of its group, `size` and `nPrefs` are 4, nothing
else in the record changes, and the cursor stops on the fifth byte, which is
not examined: any memory holding the same four bytes gives the same final
state, whatever follows them. -/
theorem x86_get_prefixes_four_prefixes (mem : Memory) (a p0 p1 p2 p3 : Nat)
    (hb : bufferAt mem a [p0, p1, p2, p3]) (hd : distinctGroups [p0, p1, p2, p3]) :
    (∀ p ∈ [p0, p1, p2, p3], ∀ g, prefixGroup p = some g →
        (x86_get_prefixes mem a x86.inst.fresh).prefixes.getD g 0 = p) ∧
      (x86_get_prefixes mem a x86.inst.fresh).size = 4 ∧
      (x86_get_prefixes_scan mem a x86.inst.fresh).nPrefs = 4 ∧
      (x86_get_prefixes_scan mem a x86.inst.fresh).hasPrefix = true ∧
      x86_get_prefixes_cursor mem a x86.inst.fresh = a + 4 ∧
      x86_get_prefixes mem a x86.inst.fresh =
        { x86.inst.fresh with
          prefixes := (x86_get_prefixes mem a x86.inst.fresh).prefixes
          size := 4 } ∧
      (∀ mem' : Memory, bufferAt mem' a [p0, p1, p2, p3] →
        x86_get_prefixes_scan mem' a x86.inst.fresh =
          x86_get_prefixes_scan mem a x86.inst.fresh) := by
  have hfull := scan_full_fresh mem a [p0, p1, p2, p3] hb hd rfl
  obtain ⟨hin, _, hsize⟩ := recordAfter_fresh [p0, p1, p2, p3] hd
  have hrec : x86_get_prefixes mem a x86.inst.fresh =
      recordAfter x86.inst.fresh [p0, p1, p2, p3] := by
    unfold x86_get_prefixes
    rw [hfull]
    exact scan_record a _
  unfold x86_get_prefixes_cursor
  rw [hrec, hfull]
  refine ⟨hin, hsize, ?_, ?_, ?_, ?_, ?_⟩
  · exact acceptAll_nPrefs [p0, p1, p2, p3] _ (by show 0 + 4 ≤ 4; omega)
  · exact acceptAll_hasPrefix [p0, p1, p2, p3] _
  · exact acceptAll_byte [p0, p1, p2, p3] _
  · rfl
  · intro mem' hb'
    exact scan_full_fresh mem' a [p0, p1, p2, p3] hb' hd rfl

/-- C5 (witness): `[0xF0, 0x2E, 0x66, 0x67, 0xF0, 0x90]`; the fifth byte is a
LOCK prefix again, and the scan ends with slots F0/2E/66/67, `size` 4 and the
cursor on that fifth byte. -/
theorem x86_get_prefixes_four_prefixes_witness :
    (x86_get_prefixes (memOf [0xF0, 0x2E, 0x66, 0x67, 0xF0, 0x90]) 0 x86.inst.fresh).prefixes
        = [0xF0, 0x2E, 0x66, 0x67] ∧
      (x86_get_prefixes (memOf [0xF0, 0x2E, 0x66, 0x67, 0xF0, 0x90]) 0 x86.inst.fresh).size = 4 ∧
      (x86_get_prefixes_scan (memOf [0xF0, 0x2E, 0x66, 0x67, 0xF0, 0x90]) 0
        x86.inst.fresh).nPrefs = 4 ∧
      x86_get_prefixes_cursor (memOf [0xF0, 0x2E, 0x66, 0x67, 0xF0, 0x90]) 0 x86.inst.fresh
        = 0 + 4 :=
  have hb : bufferAt (memOf [0xF0, 0x2E, 0x66, 0x67, 0xF0, 0x90]) 0 [0xF0, 0x2E, 0x66, 0x67] :=
    ⟨rfl, rfl, rfl, rfl, trivial⟩
  have hd : distinctGroups [0xF0, 0x2E, 0x66, 0x67] := by unfold distinctGroups; decide
  have h := x86_get_prefixes_four_prefixes (memOf [0xF0, 0x2E, 0x66, 0x67, 0xF0, 0x90]) 0
    0xF0 0x2E 0x66 0x67 hb hd
  ⟨by decide, h.2.1, h.2.2.1, h.2.2.2.2.1⟩

/-- C6: the `switch` of `x86_get_prefixes` puts every byte in at most one
group: group 0 exactly for `0xF0`, `0xF2`, `0xF3`, group 1 exactly for
`0x26`, `0x2E`, `0x36`, `0x3E`, `0x64`, `0x65`, group 2 exactly for `0x66`,
group 3 exactly for `0x67`, and no group for any other byte. After a scan of
any memory from the all-zero record each slot is empty or holds a byte of
its own group. A byte of no group ends the scan without being recorded: run
on any record, a scan whose first byte is no prefix leaves the record
unchanged, and after a run of fewer than four prefixes of distinct groups
the scan clears `hasPrefix` and leaves the run and nothing more. -/
theorem x86_get_prefixes_classifies (mem : Memory) (a : Nat) :
    (∀ b, (prefixGroup b = some 0 ↔ b = 0xF0 ∨ b = 0xF2 ∨ b = 0xF3) ∧
        (prefixGroup b = some 1 ↔
          b = 0x26 ∨ b = 0x2E ∨ b = 0x36 ∨ b = 0x3E ∨ b = 0x64 ∨ b = 0x65) ∧
        (prefixGroup b = some 2 ↔ b = 0x66) ∧
        (prefixGroup b = some 3 ↔ b = 0x67) ∧
        (∀ g, prefixGroup b = some g → g < 4)) ∧
      ((x86_get_prefixes mem a x86.inst.fresh).prefixes.getD 0 0 ∈ [0, 0xF0, 0xF2, 0xF3]) ∧
      ((x86_get_prefixes mem a x86.inst.fresh).prefixes.getD 1 0 ∈
        [0, 0x26, 0x2E, 0x36, 0x3E, 0x64, 0x65]) ∧
      ((x86_get_prefixes mem a x86.inst.fresh).prefixes.getD 2 0 ∈ [0, 0x66]) ∧
      ((x86_get_prefixes mem a x86.inst.fresh).prefixes.getD 3 0 ∈ [0, 0x67]) ∧
      (∀ i : x86.inst, prefixGroup (load mem a) = none → x86_get_prefixes mem a i = i) ∧
      (∀ (pre : List Nat) (q : Nat), bufferAt mem a (pre ++ [q]) → distinctGroups pre →
        pre.length < 4 → prefixGroup q = none →
        x86_get_prefixes mem a x86.inst.fresh = recordAfter x86.inst.fresh pre ∧
        (x86_get_prefixes_scan mem a x86.inst.fresh).hasPrefix = false) := by
  have hclass : ∀ b, (prefixGroup b = some 0 ↔ b = 0xF0 ∨ b = 0xF2 ∨ b = 0xF3) ∧
        (prefixGroup b = some 1 ↔
          b = 0x26 ∨ b = 0x2E ∨ b = 0x36 ∨ b = 0x3E ∨ b = 0x64 ∨ b = 0x65) ∧
        (prefixGroup b = some 2 ↔ b = 0x66) ∧
        (prefixGroup b = some 3 ↔ b = 0x67) ∧
        (∀ g, prefixGroup b = some g → g < 4) := by
    intro b
    refine ⟨?_, ?_, ?_, ?_, fun g hg => (prefixGroup_some hg).1⟩ <;>
      rw [prefixGroup_eq] <;> split_ifs <;> simp <;> omega
  obtain ⟨⟨_, hall⟩, _, _⟩ := scanInv_scan mem a
  refine ⟨hclass, ?_, ?_, ?_, ?_, ?_, ?_⟩
  · rcases hall 0 (by omega) with h | h
    · unfold x86_get_prefixes; rw [h]; simp
    · have := ((hclass _).1).mp h
      unfold x86_get_prefixes; simp only [List.mem_cons]; omega
  · rcases hall 1 (by omega) with h | h
    · unfold x86_get_prefixes; rw [h]; simp
    · have := ((hclass _).2.1).mp h
      unfold x86_get_prefixes; simp only [List.mem_cons]; omega
  · rcases hall 2 (by omega) with h | h
    · unfold x86_get_prefixes; rw [h]; simp
    · have := ((hclass _).2.2.1).mp h
      unfold x86_get_prefixes; simp only [List.mem_cons]; omega
  · rcases hall 3 (by omega) with h | h
    · unfold x86_get_prefixes; rw [h]; simp
    · have := ((hclass _).2.2.2.1).mp h
      unfold x86_get_prefixes; simp only [List.mem_cons]; omega
  · intro i hq
    have h := scan_non mem a i [] (load mem a) ⟨rfl, trivial⟩ trivial (by decide) hq
    unfold x86_get_prefixes
    rw [h]
    rfl
  · intro pre q hb hd hl hq
    have h := scan_non_fresh mem a pre q hb hd hl hq
    exact ⟨h.1, h.2.2⟩

/-- C6 (witness): `[0x2E, 0x66, 0x90]`: the two prefixes go to slots 1 and 2
and the byte `0x90` ends the scan unrecorded; on `[0x90]` a record is left
as it was. -/
theorem x86_get_prefixes_classifies_witness :
    x86_get_prefixes (memOf [0x2E, 0x66, 0x90]) 0 x86.inst.fresh =
        recordAfter x86.inst.fresh [0x2E, 0x66] ∧
      (x86_get_prefixes_scan (memOf [0x2E, 0x66, 0x90]) 0 x86.inst.fresh).hasPrefix = false ∧
      recordAfter x86.inst.fresh [0x2E, 0x66] =
        { x86.inst.fresh with prefixes := [0, 0x2E, 0x66, 0], size := 2 } :=
  have h := (x86_get_prefixes_classifies (memOf [0x2E, 0x66, 0x90]) 0).2.2.2.2.2.2
    [0x2E, 0x66] 0x90 ⟨rfl, rfl, rfl, trivial⟩ (by unfold distinctGroups; decide)
    (by decide) (by decide)
  ⟨h.1, h.2, by decide⟩

/-! ## `x86_get_opcode` -/

/-- What `x86_get_opcode` computes, for every table, memory and start state:
the selector after the escape bytes, the attribute word read at the opcode
byte, and the cursor, which stands on the opcode byte unless the ModR/M bit
is set, in which case it stands one byte further and `modrm` points at the
opcode byte. -/
theorem x86_get_opcode_eq (tables : Nat → Nat → Nat) (mem : Memory) (s : OpcodeScan) :
    (x86_get_opcode tables mem s).table = (x86_get_opcode_escape mem s).table ∧
      (x86_get_opcode tables mem s).inst.attr =
        tables (x86_get_opcode_escape mem s).table
          (load mem (x86_get_opcode_escape mem s).byte) % 2 ^ 32 ∧
      ((x86_get_opcode tables mem s).inst.attr &&& x86.attributes.modrm ≠ 0 →
        (x86_get_opcode tables mem s).byte = (x86_get_opcode_escape mem s).byte + 1 ∧
        (x86_get_opcode tables mem s).inst.modrm = some (x86_get_opcode_escape mem s).byte) ∧
      ((x86_get_opcode tables mem s).inst.attr &&& x86.attributes.modrm = 0 →
        (x86_get_opcode tables mem s).byte = (x86_get_opcode_escape mem s).byte ∧
        (x86_get_opcode tables mem s).inst.modrm = s.inst.modrm) := by
  have hesc : (x86_get_opcode_escape mem s).inst = s.inst := by
    unfold x86_get_opcode_escape
    simp only
    split_ifs <;> rfl
  unfold x86_get_opcode
  simp only
  split_ifs with h
  · exact ⟨rfl, rfl, fun _ => ⟨rfl, rfl⟩, fun h0 => absurd h0 h⟩
  · refine ⟨rfl, rfl, fun h1 => absurd h1 h, fun _ => ⟨rfl, ?_⟩⟩
    show (x86_get_opcode_escape mem s).inst.modrm = s.inst.modrm
    rw [hesc]

/-- The escape handling, for every memory and start state: selector and
cursor after it. -/
theorem x86_get_opcode_escape_eq (mem : Memory) (s : OpcodeScan) :
    (load mem s.byte ≠ 0x0F → x86_get_opcode_escape mem s = s) ∧
      (load mem s.byte = 0x0F → load mem (s.byte + 1) = 0x3A →
        x86_get_opcode_escape mem s = { s with table := 31, byte := s.byte + 2 }) ∧
      (load mem s.byte = 0x0F → load mem (s.byte + 1) = 0x38 →
        x86_get_opcode_escape mem s = { s with table := 32, byte := s.byte + 2 }) ∧
      (load mem s.byte = 0x0F → load mem (s.byte + 1) ≠ 0x3A → load mem (s.byte + 1) ≠ 0x38 →
        x86_get_opcode_escape mem s = { s with table := 1, byte := s.byte + 1 }) := by
  unfold x86_get_opcode_escape
  refine ⟨fun h => ?_, fun h h1 => ?_, fun h h1 => ?_, fun h h1 h2 => ?_⟩
  · rw [if_neg h]
  · simp [h, h1]
  · simp [h, h1]
  · simp [h, h1, h2]

/-- C7 (the code at the failing inputs): with no ModR/M bit in the attribute
word, `x86_get_opcode` selects the table as claimed (selector 0 kept for
`[0x90]`, 1 for `0F 0B`, 31 for `0F 3A 0F`, 32 for `0F 38 00`) but leaves the
cursor on the opcode byte: 0, 1 and 2 bytes are consumed, not 1, 2 and 3. -/
theorem x86_get_opcode_cursor_on_opcode :
    x86_get_opcode noAttrTables (memOf [0x90]) (opcodeStart 0) = opcodeStart 0 ∧
      x86_get_opcode noAttrTables (memOf [0x0F, 0x0B]) (opcodeStart 0) =
        { opcodeStart 0 with table := 1, byte := 1 } ∧
      x86_get_opcode noAttrTables (memOf [0x0F, 0x3A, 0x0F]) (opcodeStart 0) =
        { opcodeStart 0 with table := 31, byte := 2 } ∧
      x86_get_opcode noAttrTables (memOf [0x0F, 0x38, 0x00]) (opcodeStart 0) =
        { opcodeStart 0 with table := 32, byte := 2 } := by
  decide

/-- C8 (the code at the failing input): on `[0x0F, 0x1F, 0x00]`, with the
ModR/M bit set for the two-byte opcode `1F`, `x86_get_opcode` records as
ModR/M the address 1 of the opcode byte, so the recorded ModR/M byte is
`0x1F` and not `0x00`, and the cursor ends on address 2, on the byte `0x00`
and not past it. -/
theorem x86_get_opcode_modrm_is_opcode_byte :
    (x86_get_opcode nopTables (memOf [0x0F, 0x1F, 0x00]) (opcodeStart 0)).inst.attr
        &&& x86.attributes.modrm ≠ 0 ∧
      (x86_get_opcode nopTables (memOf [0x0F, 0x1F, 0x00]) (opcodeStart 0)).table = 1 ∧
      (x86_get_opcode nopTables (memOf [0x0F, 0x1F, 0x00]) (opcodeStart 0)).inst.modrm
        = some 1 ∧
      modrmByte (memOf [0x0F, 0x1F, 0x00])
        (x86_get_opcode nopTables (memOf [0x0F, 0x1F, 0x00]) (opcodeStart 0)).inst = some 0x1F ∧
      (x86_get_opcode nopTables (memOf [0x0F, 0x1F, 0x00]) (opcodeStart 0)).byte = 2 := by
  decide

/-! ## The ModR/M and SIB accessors -/

theorem and_seven (b : Nat) : b &&& 0x07 = b % 8 := Nat.and_pow_two_sub_one_eq_mod b 3

theorem and_38_shift (b : Nat) : (b &&& 0x38) >>> 3 = (b / 8) % 8 := by
  have h : (b &&& 0x38) >>> 3 = (b >>> 3) &&& 7 := by
    apply Nat.eq_of_testBit_eq
    intro j
    have h56 : Nat.testBit 56 (3 + j) = Nat.testBit 7 j := by
      have e : (56 : Nat) = 7 <<< 3 := by decide
      rw [e, Nat.testBit_shiftLeft]
      simp
    simp [h56]
  rw [h, and_seven, Nat.shiftRight_eq_div_pow]

/-- C9: for every byte `b` the ModR/M accessors give `mod = b / 64 < 4`,
`reg = (b / 8) % 8 < 8` and `rm = b % 8 < 8`, and the three fields determine
the byte: `b = mod * 64 + reg * 8 + rm`. -/
theorem modrm_decompose (b : Nat) (hb : b < 256) :
    x86.modrm.mod b = b / 64 ∧ x86.modrm.mod b < 4 ∧
      x86.modrm.reg b = (b / 8) % 8 ∧ x86.modrm.reg b < 8 ∧
      x86.modrm.rm b = b % 8 ∧ x86.modrm.rm b < 8 ∧
      b = x86.modrm.mod b * 64 + x86.modrm.reg b * 8 + x86.modrm.rm b := by
  have h1 : x86.modrm.mod b = b / 64 := by
    unfold x86.modrm.mod
    rw [Nat.shiftRight_eq_div_pow]; omega
  have h2 : x86.modrm.reg b = (b / 8) % 8 := by
    unfold x86.modrm.reg
    rw [and_38_shift]; omega
  have h3 : x86.modrm.rm b = b % 8 := by
    unfold x86.modrm.rm
    rw [and_seven]; omega
  rw [h1, h2, h3]
  omega

/-- C9 (witness): the byte `0xFA` has mod 3, reg 7, rm 2. -/
theorem modrm_decompose_witness :
    (0xFA : Nat) < 256 ∧ x86.modrm.mod 0xFA = 0xFA / 64 ∧ x86.modrm.mod 0xFA < 4 ∧
      x86.modrm.reg 0xFA = (0xFA / 8) % 8 ∧ x86.modrm.reg 0xFA < 8 ∧
      x86.modrm.rm 0xFA = 0xFA % 8 ∧ x86.modrm.rm 0xFA < 8 ∧
      0xFA = x86.modrm.mod 0xFA * 64 + x86.modrm.reg 0xFA * 8 + x86.modrm.rm 0xFA :=
  ⟨by decide, modrm_decompose 0xFA (by decide)⟩

/-- C10: for every byte `b` the SIB accessors give `scale = b / 64 < 4`,
`index = (b / 8) % 8` and `base = b % 8`, with
`b = scale * 64 + index * 8 + base`; hence a byte `c` with the same scale,
index and base is the same byte. -/
theorem sib_decompose (b c : Nat) (hb : b < 256) (hc : c < 256) :
    x86.sib.scale b = b / 64 ∧ x86.sib.scale b < 4 ∧
      x86.sib.index b = (b / 8) % 8 ∧
      x86.sib.base b = b % 8 ∧
      b = x86.sib.scale b * 64 + x86.sib.index b * 8 + x86.sib.base b ∧
      (x86.sib.scale b = x86.sib.scale c → x86.sib.index b = x86.sib.index c →
        x86.sib.base b = x86.sib.base c → b = c) := by
  have h1 : ∀ x, x < 256 → x86.sib.scale x = x / 64 := by
    intro x hx
    unfold x86.sib.scale
    rw [Nat.shiftRight_eq_div_pow]; omega
  have h2 : ∀ x, x < 256 → x86.sib.index x = (x / 8) % 8 := by
    intro x hx
    unfold x86.sib.index
    rw [and_38_shift]; omega
  have h3 : ∀ x, x < 256 → x86.sib.base x = x % 8 := by
    intro x hx
    unfold x86.sib.base
    rw [and_seven]; omega
  rw [h1 b hb, h2 b hb, h3 b hb, h1 c hc, h2 c hc, h3 c hc]
  omega

/-- C10 (witness): the bytes `0x24` and `0x24` (scale 0, index 4, base 4). -/
theorem sib_decompose_witness :
    x86.sib.scale 0x24 = 0 ∧ x86.sib.index 0x24 = 4 ∧ x86.sib.base 0x24 = 4 ∧
      0x24 = x86.sib.scale 0x24 * 64 + x86.sib.index 0x24 * 8 + x86.sib.base 0x24 :=
  have h := sib_decompose 0x24 0x24 (by decide) (by decide)
  ⟨h.1, h.2.2.1, h.2.2.2.1, h.2.2.2.2.1⟩

/-! ## The attribute predicates -/

/-- A flag at bit `k` of the attribute word, read through a `uint8_t`
parameter: bits 8 and above are gone after the conversion. -/
theorem narrowed_flag_high (a k : Nat) (hk : 8 ≤ k) : ((a % 256) &&& (1 <<< k)) % 256 = 0 := by
  have h : (a % 2 ^ 8).testBit k = false := by
    rw [Nat.testBit_mod_two_pow]
    simp; omega
  rw [Nat.one_shiftLeft, Nat.and_two_pow, show (256 : Nat) = 2 ^ 8 from rfl, h]
  simp

/-- A flag at bit `k < 8` survives the conversion to `uint8_t`. -/
theorem narrowed_flag_low (a k : Nat) (hk : k < 8) :
    ((a % 256) &&& (1 <<< k)) % 256 = if a.testBit k then 2 ^ k else 0 := by
  have h : (a % 2 ^ 8).testBit k = a.testBit k := by
    rw [Nat.testBit_mod_two_pow]
    simp [hk]
  have hp : 2 ^ k < 256 := by
    have h8 : k = 0 ∨ k = 1 ∨ k = 2 ∨ k = 3 ∨ k = 4 ∨ k = 5 ∨ k = 6 ∨ k = 7 := by omega
    rcases h8 with rfl | rfl | rfl | rfl | rfl | rfl | rfl | rfl <;> decide
  rw [Nat.one_shiftLeft, Nat.and_two_pow, show (256 : Nat) = 2 ^ 8 from rfl, h]
  cases a.testBit k
  · simp
  · simp only [Bool.toNat_true, Nat.one_mul, if_true]
    exact Nat.mod_eq_of_lt hp

/-- C15 (the code at the failing inputs): each of `isEscapeCode`, `isOpcode`,
`isPrefix`, `hasRex` and `hasVex` returns 0 for every attribute word, because
its parameter is a `uint8_t` and the flag it masks lies at bit 12 or above;
so for the words `1 << 13`, `1 << 12`, `1 << 20`, `1 << 19` and `1 << 18`,
which have the flag set, the predicate is still 0. -/
theorem attribute_predicates_high_always_zero :
    (∀ a : Nat, x86.isEscapeCode a = 0 ∧ x86.isOpcode a = 0 ∧ x86.isPrefix a = 0 ∧
        x86.hasRex a = 0 ∧ x86.hasVex a = 0) ∧
      ((1 <<< 13 : Nat) < 2 ^ 32 ∧ (1 <<< 13 : Nat).testBit 13 = true ∧
        x86.isEscapeCode (1 <<< 13) = 0) ∧
      ((1 <<< 12 : Nat).testBit 12 = true ∧ x86.isOpcode (1 <<< 12) = 0) ∧
      ((1 <<< 20 : Nat).testBit 20 = true ∧ x86.isPrefix (1 <<< 20) = 0) ∧
      ((1 <<< 19 : Nat).testBit 19 = true ∧ x86.hasRex (1 <<< 19) = 0) ∧
      ((1 <<< 18 : Nat).testBit 18 = true ∧ x86.hasVex (1 <<< 18) = 0) := by
  refine ⟨fun a => ⟨?_, ?_, ?_, ?_, ?_⟩, by decide, by decide, by decide, by decide, by decide⟩
  · exact narrowed_flag_high a 13 (by omega)
  · exact narrowed_flag_high a 12 (by omega)
  · exact narrowed_flag_high a 20 (by omega)
  · exact narrowed_flag_high a 19 (by omega)
  · exact narrowed_flag_high a 18 (by omega)

/-- C16: for every attribute word `a`, `hasModRM a` is non-zero exactly when
bit 7 of `a` is set, `hasSib a` exactly when bit 6 is, `hasDisplacement a`
exactly when bit 5 is and `hasImmediate a` exactly when bit 4 is, the
conversions of argument and result to `uint8_t` notwithstanding; each
result is 0 or the mask of its flag. -/
theorem attribute_predicates_low_read_flag (a : Nat) :
    (x86.hasModRM a ≠ 0 ↔ a.testBit 7 = true) ∧
      (x86.hasModRM a = 0 ∨ x86.hasModRM a = x86.attributes.modrm) ∧
      (x86.hasSib a ≠ 0 ↔ a.testBit 6 = true) ∧
      (x86.hasSib a = 0 ∨ x86.hasSib a = x86.attributes.sib) ∧
      (x86.hasDisplacement a ≠ 0 ↔ a.testBit 5 = true) ∧
      (x86.hasDisplacement a = 0 ∨ x86.hasDisplacement a = x86.attributes.displacement) ∧
      (x86.hasImmediate a ≠ 0 ↔ a.testBit 4 = true) ∧
      (x86.hasImmediate a = 0 ∨ x86.hasImmediate a = x86.attributes.immediate) := by
  have h7 : x86.hasModRM a = if a.testBit 7 then 2 ^ 7 else 0 :=
    narrowed_flag_low a 7 (by omega)
  have h6 : x86.hasSib a = if a.testBit 6 then 2 ^ 6 else 0 :=
    narrowed_flag_low a 6 (by omega)
  have h5 : x86.hasDisplacement a = if a.testBit 5 then 2 ^ 5 else 0 :=
    narrowed_flag_low a 5 (by omega)
  have h4 : x86.hasImmediate a = if a.testBit 4 then 2 ^ 4 else 0 :=
    narrowed_flag_low a 4 (by omega)
  rw [h7, h6, h5, h4]
  have e7 : x86.attributes.modrm = 2 ^ 7 := by decide
  have e6 : x86.attributes.sib = 2 ^ 6 := by decide
  have e5 : x86.attributes.displacement = 2 ^ 5 := by decide
  have e4 : x86.attributes.immediate = 2 ^ 4 := by decide
  rw [e7, e6, e5, e4]
  cases a.testBit 7 <;> cases a.testBit 6 <;> cases a.testBit 5 <;> cases a.testBit 4 <;> simp

/-! ## `x86_has_modrm` -/

/-- For an opcode other than 0 the read of `x86_has_modrm` lies beyond the
end of table number `size`. -/
theorem x86_has_modrm_outside (tables : List (List Nat)) (mask size opcode : Nat)
    (hs : size < 3) : x86_has_modrm tables mask size (opcode + 1) = none := by
  unfold x86_has_modrm
  rw [if_neg (by omega)]
  rcases ht : tables[size]? with _ | table
  · rfl
  · simp only
    have hle : table.length ≤ (opcode + 1) * table.length := by
      rw [Nat.add_mul, Nat.one_mul]; omega
    rw [List.getElem?_eq_none hle]

set_option maxRecDepth 100000 in
/-- C17 (the code at the failing input): the guard does answer `false` for
every `size >= 3` without a lookup, whatever the tables are. But for
`size < 3` the expression `*(x86_opcode_attribute_table[size])[opcode]`
subscripts before it dereferences, so it reads word `opcode * 256` counted
from the start of table `size`: with three tables of 256 words,
`x86_has_modrm(1, 0x1F)` reads outside table 1 although the entry of table 1
for `0x1F` has the ModR/M bit, and so does `x86_has_modrm(0, 1)`; for no
tables and no opcode other than 0 is the answer `true`. -/
theorem x86_has_modrm_reads_outside_table :
    (∀ (tables : List (List Nat)) (mask opcode k : Nat),
        x86_has_modrm tables mask (3 + k) opcode = some false) ∧
      (∀ (tables : List (List Nat)) (mask size opcode : Nat),
        x86_has_modrm tables mask size (opcode + 1) ≠ some true) ∧
      (nopAttributeTable[1]?.bind fun table => table[0x1F]?) = some 128 ∧
      x86_has_modrm nopAttributeTable 128 1 0x1F = none ∧
      x86_has_modrm nopAttributeTable 128 0 1 = none ∧
      x86_has_modrm nopAttributeTable 128 1 0 = some false := by
  refine ⟨?_, ?_, by rfl, by rfl, by rfl, by rfl⟩
  · intro tables mask opcode k
    unfold x86_has_modrm
    rw [if_pos (Or.inr (by omega))]
  · intro tables mask size opcode
    rcases Nat.lt_or_ge size 3 with h | h
    · rw [x86_has_modrm_outside tables mask size opcode h]
      exact fun e => Option.noConfusion e
    · unfold x86_has_modrm
      rw [if_pos (Or.inr h)]
      intro e
      exact Bool.noConfusion (Option.some.inj e)

/-! ## Passes of the loop and the bytes it reads -/

theorem prefixBody_congr (mem mem' : Memory) (s : PrefixScan)
    (h : load mem s.byte = load mem' s.byte) : prefixBody mem s = prefixBody mem' s := by
  unfold prefixBody
  rw [h]

/-- A pass after which the loop goes on has accepted a prefix: `nPrefs` and
the cursor have both moved by one. -/
theorem prefixBody_continue (mem : Memory) (s s1 : PrefixScan)
    (hb : prefixBody mem s = (false, s1)) (hp : s1.hasPrefix = true) :
    s1.nPrefs = (s.nPrefs + 1) % 256 ∧ s1.byte = s.byte + 1 := by
  unfold prefixBody at hb
  simp only at hb
  split_ifs at hb with h1 h2
  · simp at hb
  · simp at hb
    obtain ⟨_, rfl⟩ := hb
    exact ⟨rfl, rfl⟩
  · simp at hb
    obtain ⟨_, rfl⟩ := hb
    simp at hp
    simp at h1
    simp [h1] at hp

theorem prefixPasses_le (mem : Memory) :
    ∀ (k : Nat) (s : PrefixScan) (fuel : Nat), s.nPrefs + k = 4 → 0 < k →
      prefixPasses mem fuel s ≤ k := by
  intro k
  induction k with
  | zero => intro s fuel _ h; omega
  | succ k ih =>
    intro s fuel hn _
    cases fuel with
    | zero => simp [prefixPasses]
    | succ f =>
      rw [prefixPasses]
      rcases hb : prefixBody mem s with ⟨r, s1⟩
      cases r with
      | true => simp only; omega
      | false =>
        simp only
        by_cases hc : (s1.hasPrefix && decide (s1.nPrefs < 4)) = true
        · rw [if_pos hc]
          simp only [Bool.and_eq_true, decide_eq_true_eq] at hc
          obtain ⟨hn1, _⟩ := prefixBody_continue mem s s1 hb hc.1
          have := ih s1 f (by omega) (by omega)
          omega
        · rw [if_neg hc]; omega

theorem prefixLoop_agree (mem mem' : Memory) :
    ∀ (fuel k : Nat) (s : PrefixScan), s.nPrefs + k = 4 → 0 < k →
      (∀ j, j < k → load mem (s.byte + j) = load mem' (s.byte + j)) →
      prefixLoop mem fuel s = prefixLoop mem' fuel s := by
  intro fuel
  induction fuel with
  | zero => intro k s _ _ _; rfl
  | succ f ih =>
    intro k s hn hk h
    rw [prefixLoop, prefixLoop, ← prefixBody_congr mem mem' s (by simpa using h 0 hk)]
    rcases hb : prefixBody mem s with ⟨r, s1⟩
    cases r with
    | true => rfl
    | false =>
      simp only
      by_cases hc : (s1.hasPrefix && decide (s1.nPrefs < 4)) = true
      · rw [if_pos hc, if_pos hc]
        simp only [Bool.and_eq_true, decide_eq_true_eq] at hc
        obtain ⟨hn1, hb1⟩ := prefixBody_continue mem s s1 hb hc.1
        refine ih (k - 1) s1 (by omega) (by omega) ?_
        intro j hj
        rw [hb1]
        have e : s.byte + 1 + j = s.byte + (j + 1) := by omega
        rw [e]
        exact h (j + 1) (by omega)
      · rw [if_neg hc, if_neg hc]

/-- C19: from any record, the loop of `x86_get_prefixes` makes at most four
passes however much fuel it is given, with fuel 4 or more it reaches the
state in which the function returns, and it reads only the first four
bytes: on two memories that agree on the four bytes from the start address
it returns in the same state, so the prefix slots and `size` are the
same. -/
theorem x86_get_prefixes_first_four_bytes (mem mem' : Memory) (a : Nat) (i : x86.inst)
    (fuel : Nat) (h : ∀ j, j < 4 → load mem (a + j) = load mem' (a + j)) :
    prefixPasses mem fuel (prefixStart a i) ≤ 4 ∧
      (4 ≤ fuel → prefixLoop mem fuel (prefixStart a i) = x86_get_prefixes_scan mem a i) ∧
      x86_get_prefixes_scan mem a i = x86_get_prefixes_scan mem' a i ∧
      (x86_get_prefixes mem a i).prefixes = (x86_get_prefixes mem' a i).prefixes ∧
      (x86_get_prefixes mem a i).size = (x86_get_prefixes mem' a i).size := by
  have hs : x86_get_prefixes_scan mem a i = x86_get_prefixes_scan mem' a i :=
    prefixLoop_agree mem mem' 4 4 (prefixStart a i) rfl (by omega) h
  refine ⟨prefixPasses_le mem 4 (prefixStart a i) fuel rfl (by omega),
    fun hf => x86_get_prefixes_scan_fuel mem a i fuel hf, hs, ?_, ?_⟩
  · unfold x86_get_prefixes; rw [hs]
  · unfold x86_get_prefixes; rw [hs]

/-- C19 (witness): `[0xF0, 0x2E, 0x66, 0x67, 0xF0]` and
`[0xF0, 0x2E, 0x66, 0x67, 0x90, 0x90]` agree on their first four bytes and
give the same slots and size; the loop makes four passes on the first. -/
theorem x86_get_prefixes_first_four_bytes_witness :
    prefixPasses (memOf [0xF0, 0x2E, 0x66, 0x67, 0xF0]) 100 (prefixStart 0 x86.inst.fresh) = 4 ∧
      (x86_get_prefixes (memOf [0xF0, 0x2E, 0x66, 0x67, 0xF0]) 0 x86.inst.fresh).prefixes =
        (x86_get_prefixes (memOf [0xF0, 0x2E, 0x66, 0x67, 0x90, 0x90]) 0
          x86.inst.fresh).prefixes ∧
      (x86_get_prefixes (memOf [0xF0, 0x2E, 0x66, 0x67, 0xF0]) 0 x86.inst.fresh).size =
        (x86_get_prefixes (memOf [0xF0, 0x2E, 0x66, 0x67, 0x90, 0x90]) 0 x86.inst.fresh).size :=
  have h := x86_get_prefixes_first_four_bytes (memOf [0xF0, 0x2E, 0x66, 0x67, 0xF0])
    (memOf [0xF0, 0x2E, 0x66, 0x67, 0x90, 0x90]) 0 x86.inst.fresh 100
    (by
      intro j hj
      have h4 : j = 0 ∨ j = 1 ∨ j = 2 ∨ j = 3 := by omega
      rcases h4 with rfl | rfl | rfl | rfl <;> rfl)
  ⟨by decide, h.2.2.2.1, h.2.2.2.2⟩

/-! ## Order of the prefixes -/

theorem slots_eq_of_getD (l l' : List Nat) (h1 : l.length = 4) (h2 : l'.length = 4)
    (h : ∀ g, l.getD g 0 = l'.getD g 0) : l = l' := by
  match l, l', h1, h2 with
  | [x0, x1, x2, x3], [y0, y1, y2, y3], _, _ =>
    have e0 := h 0
    have e1 := h 1
    have e2 := h 2
    have e3 := h 3
    simp at e0 e1 e2 e3
    rw [e0, e1, e2, e3]

theorem distinctGroups_perm {pre pre' : List Nat} (hp : pre.Perm pre')
    (hd : distinctGroups pre) : distinctGroups pre' :=
  ⟨fun p hp' => hd.1 p (hp.mem_iff.mpr hp'), (hp.map prefixGroup).nodup_iff.mp hd.2⟩

/-- The slots after a run of prefixes of distinct groups do not depend on
the order of the run. -/
theorem recordAfter_perm (pre pre' : List Nat) (hp : pre.Perm pre')
    (hd : distinctGroups pre) :
    recordAfter x86.inst.fresh pre = recordAfter x86.inst.fresh pre' := by
  have hd' := distinctGroups_perm hp hd
  have hslots : storeAll x86.inst.fresh.prefixes pre = storeAll x86.inst.fresh.prefixes pre' := by
    apply slots_eq_of_getD
    · rw [storeAll_length]; rfl
    · rw [storeAll_length]; rfl
    · intro g
      by_cases hg : some g ∈ pre.map prefixGroup
      · obtain ⟨p, hpm, hpg⟩ := List.mem_map.mp hg
        rw [storeAll_getD_mem pre x86.inst.fresh.prefixes rfl hd p hpm g hpg,
          storeAll_getD_mem pre' x86.inst.fresh.prefixes rfl hd' p (hp.mem_iff.mp hpm) g hpg]
      · have hg' : some g ∉ pre'.map prefixGroup := fun h =>
          hg ((hp.map prefixGroup).mem_iff.mpr h)
        rw [storeAll_getD_other g pre _ hg hd.1, storeAll_getD_other g pre' _ hg' hd'.1]
  unfold recordAfter
  rw [hslots, hp.length_eq]

/-- C18: for every run of legacy prefixes of pairwise-distinct groups (hence
of at most four) followed by a non-prefix byte, and every permutation of the
run followed by a non-prefix byte, `x86_get_prefixes` leaves, from the
all-zero record, the same record: the same four slots and the same size. -/
theorem x86_get_prefixes_order_independent (mem mem' : Memory) (a a' : Nat)
    (pre pre' : List Nat) (n n' : Nat) (hd : distinctGroups pre) (hp : pre.Perm pre')
    (hb : bufferAt mem a (pre ++ [n])) (hb' : bufferAt mem' a' (pre' ++ [n']))
    (hn : prefixGroup n = none) (hn' : prefixGroup n' = none) :
    pre.length ≤ 4 ∧
      x86_get_prefixes mem a x86.inst.fresh = x86_get_prefixes mem' a' x86.inst.fresh ∧
      (x86_get_prefixes mem a x86.inst.fresh).prefixes =
        (x86_get_prefixes mem' a' x86.inst.fresh).prefixes ∧
      (x86_get_prefixes mem a x86.inst.fresh).size =
        (x86_get_prefixes mem' a' x86.inst.fresh).size ∧
      (x86_get_prefixes mem a x86.inst.fresh).size = pre.length := by
  have h1 := scan_ok_fresh mem a pre n hb hd hn
  have h2 := scan_ok_fresh mem' a' pre' n' hb' (distinctGroups_perm hp hd) hn'
  have he : x86_get_prefixes mem a x86.inst.fresh = x86_get_prefixes mem' a' x86.inst.fresh := by
    rw [h1, h2]; exact recordAfter_perm pre pre' hp hd
  refine ⟨distinctGroups_length_le pre hd, he, by rw [he], by rw [he], ?_⟩
  rw [h1]
  exact (recordAfter_fresh pre hd).2.2

/-- C18 (witness): `[0xF0, 0x66, 0x2E, 0x90]` and `[0x2E, 0xF0, 0x66, 0x90]`
leave the same record, with slots F0/2E/66/00 and size 3. -/
theorem x86_get_prefixes_order_independent_witness :
    x86_get_prefixes (memOf [0xF0, 0x66, 0x2E, 0x90]) 0 x86.inst.fresh =
        x86_get_prefixes (memOf [0x2E, 0xF0, 0x66, 0x90]) 0 x86.inst.fresh ∧
      (x86_get_prefixes (memOf [0xF0, 0x66, 0x2E, 0x90]) 0 x86.inst.fresh).prefixes =
        [0xF0, 0x2E, 0x66, 0] ∧
      (x86_get_prefixes (memOf [0xF0, 0x66, 0x2E, 0x90]) 0 x86.inst.fresh).size = 3 :=
  have hd : distinctGroups [0xF0, 0x66, 0x2E] := by unfold distinctGroups; decide
  have hp : [0xF0, 0x66, 0x2E].Perm [0x2E, 0xF0, 0x66] := by decide
  have h := x86_get_prefixes_order_independent (memOf [0xF0, 0x66, 0x2E, 0x90])
    (memOf [0x2E, 0xF0, 0x66, 0x90]) 0 0 [0xF0, 0x66, 0x2E] [0x2E, 0xF0, 0x66] 0x90 0x90
    hd hp ⟨rfl, rfl, rfl, rfl, trivial⟩ ⟨rfl, rfl, rfl, rfl, trivial⟩ (by decide) (by decide)
  ⟨h.2.1, by decide, h.2.2.2.2⟩

/-! ## Scanning on a record that is not all-zero -/

/-- A scan whose first byte is no prefix leaves any record as it was. -/
theorem scan_first_non (mem : Memory) (a : Nat) (i : x86.inst)
    (hq : prefixGroup (load mem a) = none) : x86_get_prefixes mem a i = i := by
  have h := scan_non mem a i [] (load mem a) ⟨rfl, trivial⟩ trivial (by decide) hq
  unfold x86_get_prefixes
  rw [h]
  rfl

/-- A scan whose first byte is a prefix of a group whose slot is occupied
leaves any record as it was. -/
theorem scan_first_dup (mem : Memory) (a : Nat) (i : x86.inst) (g : Nat)
    (hq : prefixGroup (load mem a) = some g) (hs : i.prefixes.getD g 0 ≠ 0) :
    x86_get_prefixes mem a i = i := by
  have h := scan_dup mem a i [] (load mem a) g ⟨rfl, trivial⟩ trivial (by decide) hq hs
  unfold x86_get_prefixes
  rw [h]
  rfl

/-- An occupied slot stays occupied through a pass of the loop body. -/
theorem occupied_body (mem : Memory) (g : Nat) (s : PrefixScan) (hp : s.hasPrefix = true)
    (h : s.inst.prefixes.getD g 0 ≠ 0) : (prefixBody mem s).2.inst.prefixes.getD g 0 ≠ 0 := by
  rcases hg : prefixGroup (load mem s.byte) with _ | g'
  · rw [prefixBody_non mem s hg]; exact h
  · by_cases hs : s.inst.prefixes.getD g' 0 = 0
    · rw [prefixBody_accept mem s g' hp hg hs]
      have hne : g' ≠ g := by
        intro e; rw [e] at hs; exact h hs
      show (s.inst.prefixes.set g' (load mem s.byte)).getD g 0 ≠ 0
      rw [List.getD_eq_getElem?_getD, List.getElem?_set_ne hne, ← List.getD_eq_getElem?_getD]
      exact h
    · rw [prefixBody_dup mem s g' hp hg hs]; exact h

/-- After a scan from the all-zero record whose first byte is a prefix of
group `g`, slot `g` is occupied. -/
theorem scan_first_slot_occupied (mem : Memory) (a g : Nat)
    (hq : prefixGroup (load mem a) = some g) :
    (x86_get_prefixes mem a x86.inst.fresh).prefixes.getD g 0 ≠ 0 := by
  obtain ⟨hlt, hb0, _, _⟩ := prefixGroup_some hq
  unfold x86_get_prefixes x86_get_prefixes_scan
  have h14 : ((prefixStart a x86.inst.fresh).nPrefs + 1) % 256 < 4 := by
    show (0 + 1) % 256 < 4
    decide
  rw [prefixLoop_accept mem 3 (prefixStart a x86.inst.fresh) g rfl hq (fresh_getD g),
    if_pos h14]
  refine prefixLoop_inv mem (fun s => s.inst.prefixes.getD g 0 ≠ 0) (occupied_body mem g) 3 _
    rfl ?_
  show (x86.inst.fresh.prefixes.set g (load mem a)).getD g 0 ≠ 0
  rw [List.getD_eq_getElem?_getD, List.getElem?_set_self (by exact hlt)]
  exact hb0

/-- C12 (counterexample): on the record a decode of `[0x66, 0x90]` has left,
`x86_get_prefixes` gives for `[0xF0, 0x90]` the slots F0/00/66/00 and size 2,
not the slots F0/00/00/00 and size 1 it gives on the all-zero record: slots
and size do depend on what the previous decode left. -/
theorem x86_get_prefixes_leaks_previous_record :
    ¬ ((x86_get_prefixes (memOf [0xF0, 0x90]) 0
          (x86_get_prefixes (memOf [0x66, 0x90]) 0 x86.inst.fresh)).prefixes =
        (x86_get_prefixes (memOf [0xF0, 0x90]) 0 x86.inst.fresh).prefixes ∧
      (x86_get_prefixes (memOf [0xF0, 0x90]) 0
          (x86_get_prefixes (memOf [0x66, 0x90]) 0 x86.inst.fresh)).size =
        (x86_get_prefixes (memOf [0xF0, 0x90]) 0 x86.inst.fresh).size) := by
  decide

/-- C12 (amended): `x86_get_prefixes` does not reset the record it is run on.
Started on the all-zero record and then run a second time on the same bytes
and on the record the first run has left, it leaves that record as it is:
both runs end with the same record. -/
theorem x86_get_prefixes_twice_same_record (mem : Memory) (a : Nat) :
    x86_get_prefixes mem a (x86_get_prefixes mem a x86.inst.fresh) =
      x86_get_prefixes mem a x86.inst.fresh := by
  rcases hq : prefixGroup (load mem a) with _ | g
  · exact scan_first_non mem a _ hq
  · exact scan_first_dup mem a _ g hq (scan_first_slot_occupied mem a g hq)

/-! ## REX bytes and the size of the instruction -/

/-- The size field is not touched by `x86_get_opcode`. -/
theorem x86_get_opcode_size (tables : Nat → Nat → Nat) (mem : Memory) (s : OpcodeScan) :
    (x86_get_opcode tables mem s).inst.size = s.inst.size ∧
      (x86_get_opcode tables mem s).inst.prefixes = s.inst.prefixes ∧
      (x86_get_opcode tables mem s).inst.rex = s.inst.rex := by
  have hesc : (x86_get_opcode_escape mem s).inst = s.inst := by
    unfold x86_get_opcode_escape
    simp only
    split_ifs <;> rfl
  unfold x86_get_opcode
  simp only
  split_ifs <;> simp [hesc]

/-- C11 (the code at the failing input): `x86_get_opcode` never changes
`size`, so after the three stages the record counts the prefix bytes only.
From the all-zero record `size` is therefore at most 4, below 15, for every
input; but for `[0x0F, 0x1F, 0x00]` it is 0 whatever cursor and selector the
opcode stage is given, and with the cursor on the first byte that stage
moves the cursor by 2 and records a ModR/M pointer while `size` stays 0, not
3. -/
theorem decode_size_counts_prefixes_only :
    (∀ (tables : Nat → Nat → Nat) (mem : Memory) (s : OpcodeScan),
        (x86_get_opcode tables mem s).inst.size = s.inst.size) ∧
      (∀ (tables : Nat → Nat → Nat) (mem : Memory) (a c table : Nat),
        (x86_get_opcode tables mem
          { byte := c, table := table,
            inst := x86_handle_rex (x86_get_prefixes mem a x86.inst.fresh) }).inst.size ≤ 4) ∧
      (∀ (tables : Nat → Nat → Nat) (c table : Nat),
        (x86_get_opcode tables (memOf [0x0F, 0x1F, 0x00])
          { byte := c, table := table,
            inst := x86_handle_rex
              (x86_get_prefixes (memOf [0x0F, 0x1F, 0x00]) 0 x86.inst.fresh) }).inst.size = 0) ∧
      (x86_get_opcode nopTables (memOf [0x0F, 0x1F, 0x00])
          { byte := 0, table := 0,
            inst := x86_handle_rex
              (x86_get_prefixes (memOf [0x0F, 0x1F, 0x00]) 0 x86.inst.fresh) }).byte = 2 ∧
      (x86_get_opcode nopTables (memOf [0x0F, 0x1F, 0x00])
          { byte := 0, table := 0,
            inst := x86_handle_rex
              (x86_get_prefixes (memOf [0x0F, 0x1F, 0x00]) 0 x86.inst.fresh) }).inst.modrm
        = some 1 := by
  refine ⟨fun tables mem s => (x86_get_opcode_size tables mem s).1, ?_, ?_, by decide, by decide⟩
  · intro tables mem a c table
    rw [(x86_get_opcode_size tables mem _).1]
    obtain ⟨⟨hlen, _⟩, hsz, hn⟩ := scanInv_scan mem a
    have hle := populated_le (x86_get_prefixes_scan mem a x86.inst.fresh).inst.prefixes
    rw [hlen] at hle
    show (x86_get_prefixes_scan mem a x86.inst.fresh).inst.size ≤ 4
    omega
  · intro tables c table
    rw [(x86_get_opcode_size tables _ _).1]
    show (x86_handle_rex (x86_get_prefixes (memOf [0x0F, 0x1F, 0x00]) 0 x86.inst.fresh)).size = 0
    decide

/-- A byte of no prefix group is never written into a slot by a pass of the
loop body: a slot that holds it afterwards held it before. -/
theorem non_prefix_not_written_body (mem : Memory) (b : Nat) (hb : prefixGroup b = none)
    (i : x86.inst) (s : PrefixScan) (hp : s.hasPrefix = true)
    (h : ∀ g, s.inst.prefixes.getD g 0 = b → i.prefixes.getD g 0 = b) :
    ∀ g, (prefixBody mem s).2.inst.prefixes.getD g 0 = b → i.prefixes.getD g 0 = b := by
  rcases hg : prefixGroup (load mem s.byte) with _ | g'
  · rw [prefixBody_non mem s hg]; exact h
  · by_cases hs : s.inst.prefixes.getD g' 0 = 0
    · rw [prefixBody_accept mem s g' hp hg hs]
      intro g hgb
      have hgb' : (s.inst.prefixes.set g' (load mem s.byte)).getD g 0 = b := hgb
      by_cases he : g' = g
      · subst he
        by_cases hlt : g' < s.inst.prefixes.length
        · rw [List.getD_eq_getElem?_getD, List.getElem?_set_self hlt] at hgb'
          have hgb2 : load mem s.byte = b := hgb'
          rw [hgb2, hb] at hg
          exact absurd hg (by simp)
        · rw [List.set_eq_of_length_le (by omega)] at hgb'
          exact h g' hgb'
      · rw [List.getD_eq_getElem?_getD, List.getElem?_set_ne he,
          ← List.getD_eq_getElem?_getD] at hgb'
        exact h g hgb'
    · rw [prefixBody_dup mem s g' hp hg hs]; exact h

/-- The `rex` field is not touched by a pass of the loop body. -/
theorem rex_kept_body (mem : Memory) (i : x86.inst) (s : PrefixScan) (hp : s.hasPrefix = true)
    (h : s.inst.rex = i.rex) : (prefixBody mem s).2.inst.rex = i.rex := by
  rcases hg : prefixGroup (load mem s.byte) with _ | g
  · rw [prefixBody_non mem s hg]; exact h
  · by_cases hs : s.inst.prefixes.getD g 0 = 0
    · rw [prefixBody_accept mem s g hp hg hs]; exact h
    · rw [prefixBody_dup mem s g hp hg hs]; exact h

/-- C13: a byte `b` in the REX range `0x40` to `0x4F` is never treated as a
prefix, wherever it stands. It belongs to no prefix group; any pass of the
scan loop that meets it writes no slot, counts nothing and ends the loop;
after a scan of any memory from any record a slot that holds `b` held it
before, so from the all-zero record no slot holds `b`, and `size` is the
number of populated slots; after a run of fewer than four prefixes of
distinct groups followed by `b` the record is the run accepted and nothing
more, with `size` the length of the run. `x86_handle_rex` leaves the record
as it is, so the `rex` field is the one the record had, null from the
all-zero record. `x86_get_opcode` started on a byte `b` keeps the selected
table and reads the attribute word of `b` as an opcode. None of the three
functions takes the mode, so all of this holds in every mode. -/
theorem rex_range_byte_never_a_prefix (tables : Nat → Nat → Nat) (mem : Memory)
    (a table : Nat) (pre : List Nat) (i : x86.inst) (b : Nat)
    (hlo : 0x40 ≤ b) (hhi : b ≤ 0x4F) :
    prefixGroup b = none ∧
      (∀ s : PrefixScan, load mem s.byte = b →
        prefixBody mem s =
          (false, { s with hasPrefix := false, group := -1, byte := s.byte + 1 })) ∧
      (∀ g, (x86_get_prefixes mem a i).prefixes.getD g 0 = b → i.prefixes.getD g 0 = b) ∧
      (∀ g, (x86_get_prefixes mem a x86.inst.fresh).prefixes.getD g 0 ≠ b) ∧
      (x86_get_prefixes mem a x86.inst.fresh).size =
        populated (x86_get_prefixes mem a x86.inst.fresh).prefixes ∧
      (bufferAt mem a (pre ++ [b]) → distinctGroups pre → pre.length < 4 →
        x86_get_prefixes mem a x86.inst.fresh = recordAfter x86.inst.fresh pre ∧
        (x86_get_prefixes mem a x86.inst.fresh).size = pre.length ∧
        (x86_get_prefixes_scan mem a x86.inst.fresh).hasPrefix = false) ∧
      (load mem a = b → x86_get_prefixes mem a i = i) ∧
      (x86_handle_rex (x86_get_prefixes mem a i)).rex = i.rex ∧
      (x86_handle_rex (x86_get_prefixes mem a x86.inst.fresh)).rex = none ∧
      (∀ c, load mem c = b →
        (x86_get_opcode tables mem { byte := c, table := table, inst := i }).table = table ∧
        (x86_get_opcode tables mem { byte := c, table := table, inst := i }).inst.attr =
          tables table b % 2 ^ 32 ∧
        (x86_get_opcode tables mem { byte := c, table := table, inst := i }).inst.rex = i.rex ∧
        (x86_get_opcode tables mem { byte := c, table := table, inst := i }).inst.prefixes =
          i.prefixes ∧
        (x86_get_opcode tables mem { byte := c, table := table, inst := i }).inst.size =
          i.size) := by
  have hg : prefixGroup b = none := by
    rw [prefixGroup_eq]
    split_ifs <;> first | rfl | omega
  have hslot : ∀ (j : x86.inst) (g : Nat),
      (x86_get_prefixes mem a j).prefixes.getD g 0 = b → j.prefixes.getD g 0 = b := by
    intro j
    exact prefixLoop_inv mem (fun s => ∀ g, s.inst.prefixes.getD g 0 = b → j.prefixes.getD g 0 = b)
      (non_prefix_not_written_body mem b hg j) 4 (prefixStart a j) rfl (fun _ h => h)
  have hrex : ∀ j : x86.inst, (x86_get_prefixes mem a j).rex = j.rex := by
    intro j
    exact prefixLoop_inv mem (fun s => s.inst.rex = j.rex) (rex_kept_body mem j) 4
      (prefixStart a j) rfl rfl
  refine ⟨hg, ?_, hslot i, ?_, ?_, ?_, ?_, hrex i, hrex x86.inst.fresh, ?_⟩
  · intro s hs
    exact prefixBody_non mem s (by rw [hs]; exact hg)
  · intro g hgb
    have h0 := hslot x86.inst.fresh g hgb
    rw [fresh_getD] at h0
    omega
  · obtain ⟨_, hsz, hn⟩ := scanInv_scan mem a
    show (x86_get_prefixes_scan mem a x86.inst.fresh).inst.size =
      populated (x86_get_prefixes_scan mem a x86.inst.fresh).inst.prefixes
    rw [hsz, hn]
  · intro hbuf hd hl
    obtain ⟨hrec, _, hhp⟩ := scan_non_fresh mem a pre b hbuf hd hl hg
    refine ⟨hrec, ?_, hhp⟩
    rw [hrec]
    exact (recordAfter_fresh pre hd).2.2
  · intro ha
    exact scan_first_non mem a i (by rw [ha]; exact hg)
  · intro c hc
    have hesc : x86_get_opcode_escape mem { byte := c, table := table, inst := i } =
        { byte := c, table := table, inst := i } :=
      (x86_get_opcode_escape_eq mem _).1 (by show load mem c ≠ 0x0F; omega)
    obtain ⟨ht, hattr, _, _⟩ :=
      x86_get_opcode_eq tables mem { byte := c, table := table, inst := i }
    rw [hesc] at ht hattr
    obtain ⟨hsize, hpre, hr⟩ :=
      x86_get_opcode_size tables mem { byte := c, table := table, inst := i }
    refine ⟨ht, ?_, hr, hpre, hsize⟩
    rw [hattr]
    show tables table (load mem c) % 2 ^ 32 = _
    rw [hc]

/-- C13 (witness): the byte `0x40` after a legacy prefix, in
`[0x66, 0x40, 0x90]`: only `0x66` is recorded (slots 00/00/66/00), `size` is
1 and `rex` is null; and at the head of `[0x40, 0x90]` the record is left
all-zero. -/
theorem rex_range_byte_never_a_prefix_witness :
    x86_get_prefixes (memOf [0x66, 0x40, 0x90]) 0 x86.inst.fresh =
        recordAfter x86.inst.fresh [0x66] ∧
      (x86_get_prefixes (memOf [0x66, 0x40, 0x90]) 0 x86.inst.fresh).size = [0x66].length ∧
      (x86_get_prefixes (memOf [0x66, 0x40, 0x90]) 0 x86.inst.fresh).prefixes =
        [0, 0, 0x66, 0] ∧
      (∀ g, (x86_get_prefixes (memOf [0x66, 0x40, 0x90]) 0 x86.inst.fresh).prefixes.getD g 0
        ≠ 0x40) ∧
      (x86_handle_rex (x86_get_prefixes (memOf [0x66, 0x40, 0x90]) 0 x86.inst.fresh)).rex
        = none :=
  have h := rex_range_byte_never_a_prefix noAttrTables (memOf [0x66, 0x40, 0x90]) 0 0 [0x66]
    x86.inst.fresh 0x40 (by decide) (by decide)
  have hrun := h.2.2.2.2.2.1 ⟨rfl, rfl, trivial⟩ (by unfold distinctGroups; decide) (by decide)
  ⟨hrun.1, hrun.2.1, by decide, h.2.2.2.1, h.2.2.2.2.2.2.2.2.1⟩

/-- C14 (the code at the failing input): on `[0xF3, 0x48, 0x0F, 0x1E, 0xFA]`
`x86_get_prefixes` records the one Group-1 prefix `0xF3` with `size` 1, but
`x86_handle_rex` has an empty body and leaves `rex` null, and
`x86_get_opcode`, started on the byte `0x48`, keeps the primary table and
stays on that byte, taking it for the opcode; `rex` is still null and `size`
is still 1, not 5. -/
theorem rex_prefix_not_captured :
    (∀ i : x86.inst, x86_handle_rex i = i) ∧
      (x86_get_prefixes (memOf [0xF3, 0x48, 0x0F, 0x1E, 0xFA]) 0 x86.inst.fresh).prefixes =
        [0xF3, 0, 0, 0] ∧
      (x86_get_prefixes (memOf [0xF3, 0x48, 0x0F, 0x1E, 0xFA]) 0 x86.inst.fresh).size = 1 ∧
      (x86_handle_rex
        (x86_get_prefixes (memOf [0xF3, 0x48, 0x0F, 0x1E, 0xFA]) 0 x86.inst.fresh)).rex = none ∧
      x86_get_opcode noAttrTables (memOf [0xF3, 0x48, 0x0F, 0x1E, 0xFA])
          { byte := 1, table := 0,
            inst := x86_handle_rex
              (x86_get_prefixes (memOf [0xF3, 0x48, 0x0F, 0x1E, 0xFA]) 0 x86.inst.fresh) } =
        { byte := 1, table := 0,
          inst := { x86.inst.fresh with prefixes := [0xF3, 0, 0, 0], size := 1 } } := by
  refine ⟨fun _ => rfl, by decide, by decide, by decide, by decide⟩
